import Mathlib

/-!
Verification development for the `bind` analysis pass of a Go→Python binding
generator (`bind/package.go`).  The pass walks the exported declarations of an
already type-checked Go package, classifies them into constants, variables,
functions and structs, resolves documentation, reclassifies functions whose
sole non-error result is a struct type as constructors of that struct, and
attaches each struct's exported (pointer) method set.

The embedding below is a shallow, executable translation of `package.go`.
External collaborators that `package.go` consumes (the go/types scope and
method-set queries, the go/doc documentation tree) are modelled as explicit
input data.  Helpers defined in other files of the same repository
(`isErrorType`, `isStringer`, the symbol table, the `Var` constructors) are
modelled from the specification and marked as such.
-/

set_option maxHeartbeats 2000000

namespace GopyBind

/-- Semantic Go types, as far as the analysis distinguishes them: the built-in
`error` interface, basic/unnamed types identified by their printed name, and
named (declared) types identified by declaring package and name.  Equality of
`GoType` models go/types identity of `types.Type` values (`==` on the
interface), under which two named types are equal iff they are the same
declaration. -/
inductive GoType where
  | errorT : GoType
  | basic : String → GoType
  | named : String → String → GoType
deriving DecidableEq, Repr

/-- Modelled from the spec: the error-capability type test (`isErrorType`,
defined outside `src/`): a result type is the error-capability type iff it is
the built-in `error` type. -/
def isErrorType (t : GoType) : Bool :=
  t == GoType.errorT

/-- Exportedness of a Go identifier: the first character is upper-case
(models `go/ast.IsExported`; ASCII approximation of `unicode.IsUpper`). -/
def isExported (s : String) : Bool :=
  match s.data with
  | [] => false
  | c :: _ => c.isUpper

/-- A `types.Var` as it occurs in signatures: declared name (possibly empty)
and semantic type. -/
structure GoVar where
  name : String
  typ : GoType
deriving DecidableEq, Repr

/-- A `types.Signature`: optional receiver, ordered parameters, ordered
results. -/
structure GoSig where
  recv : Option GoVar
  params : List GoVar
  results : List GoVar
deriving DecidableEq, Repr

/-- A `*types.Func` object: declaring package name (`obj.Pkg().Name()`),
declared name, its signature (`obj.Type().(*types.Signature)`), and whether
`obj.Parent()` is non-nil (true for package-scope functions, false for
methods). -/
structure FuncObj where
  pkgName : String
  name : String
  sig : GoSig
  inScope : Bool
deriving DecidableEq, Repr

/-- The object kinds that reach `getDoc`: the four supported `types.Object`
shapes (`*types.Const`, `*types.Var`, `*types.Func`, `*types.TypeName`).
Any other object kind panics in the Go code and is not representable here. -/
inductive Obj where
  | constO : String → Obj
  | varO : String → Obj
  | funcO : FuncObj → Obj
  | typeO : String → Obj
deriving DecidableEq, Repr

/-- The underlying shape of an exported named type together with the answer of
the method-set query: `methodSet` is the result of
`types.NewMethodSet(types.NewPointer(T))` for the named type `T`, i.e. every
method visible through the pointer-indirected form of `T`, including methods
promoted from embedded fields (a consumed collaborator query, supplied as
input).  `isStruct` tells whether the underlying type is a `*types.Struct`. -/
inductive Decl where
  | constD : String → String → GoType → Decl
  | varD : String → GoType → Decl
  | funcD : FuncObj → Decl
  | typeD : String → String → Bool → List FuncObj → Decl
deriving DecidableEq, Repr

/-- The scope name under which a declaration is registered
(`types.Object.Name()`). -/
def Decl.name : Decl → String
  | .constD _ n _ => n
  | .varD n _ => n
  | .funcD o => o.name
  | .typeD _ n _ _ => n

/-- The declaring package name of a declaration (`types.Object.Pkg().Name()`);
variables never contribute an identity string, so their package is not
tracked. -/
def Decl.pkgOf : Decl → String
  | .constD pk _ _ => pk
  | .varD _ _ => ""
  | .funcD o => o.pkgName
  | .typeD pk _ _ _ => pk

/-- The `types.Object` view of a declaration, as handed to `getDoc` by
`scope.Lookup`. -/
def declObj : Decl → Obj
  | .constD _ n _ => Obj.constO n
  | .varD n _ => Obj.varO n
  | .funcD o => Obj.funcO o
  | .typeD _ n _ _ => Obj.typeO n

/-! ## The documentation tree (`*doc.Package`), a consumed collaborator -/

/-- One entry of the constant or variable doc bucket (`*doc.Value`): one doc
comment covering several co-declared names. -/
structure DocValue where
  names : List String
  doc : String
deriving DecidableEq, Repr

/-- One entry of a function doc bucket (`*doc.Func`). -/
structure DocFunc where
  name : String
  doc : String
deriving DecidableEq, Repr

/-- One entry of the type doc bucket (`*doc.Type`), with its nested
constructor (`Funcs`) and method (`Methods`) sub-buckets. -/
structure DocType where
  name : String
  doc : String
  funcs : List DocFunc
  methods : List DocFunc
deriving DecidableEq, Repr

/-- The documentation tree: five buckets of doc comments. -/
structure DocPackage where
  consts : List DocValue
  vars : List DocValue
  types : List DocType
  funcs : List DocFunc
deriving DecidableEq, Repr

/-- Modelled from the spec: `pyTypeName` (defined outside `src/`) renders the
semantic type name used inside synthesized signature lines. -/
def pyTypeName : GoType → String
  | .errorT => "error"
  | .basic n => n
  | .named _ n => n

/-! ## getDoc -/

/-- Scan of a constant/variable doc bucket: the first entry one of whose
comma-grouped names matches wins; absent names yield the empty string. -/
def findValueDoc : List DocValue → String → String
  | [], _ => ""
  | v :: rest, n => if v.names.contains n then v.doc else findValueDoc rest n

/-- Scan of a function doc bucket by exact name; `some` on the first name
match (even when its text is empty). -/
def findFuncDoc : List DocFunc → String → Option String
  | [], _ => none
  | f :: rest, n => if f.name == n then some f.doc else findFuncDoc rest n

/-- Scan of the type doc bucket by exact type name. -/
def findTypeDoc : List DocType → String → String
  | [], _ => ""
  | t :: rest, n => if t.name == n then t.doc else findTypeDoc rest n

/-- The nested scan of `getDoc`'s callable branch: walk the type bucket, and
inside every entry named `parent` scan the methods (`useMethods = true`) or
constructors sub-bucket for `n`; a type entry whose sub-bucket lacks `n` does
not stop the walk. -/
def findTypeFuncDoc (types : List DocType) (parent n : String) (useMethods : Bool) : String :=
  match types with
  | [] => ""
  | t :: rest =>
      if t.name == parent then
        match findFuncDoc (if useMethods then t.methods else t.funcs) n with
        | some s => s
        | none => findTypeFuncDoc rest parent n useMethods
      else findTypeFuncDoc rest parent n useMethods

/-- Rendering of one parameter or result inside the synthesized signature
line: the semantic type name, followed by the declared name when present. -/
def sigParamText (v : GoVar) : String :=
  if v.name != "" then pyTypeName v.typ ++ " " ++ v.name else pyTypeName v.typ

/-- Translation of `(*Package).getDoc`: resolve the doc string of a
declaration given the name of the containing scope (`""` for package scope).
For callables the human doc (when found in the appropriate bucket) is
prefixed with a synthesized one-line signature. -/
def getDoc (d : DocPackage) (parent : String) (o : Obj) : String :=
  match o with
  | .constO n => findValueDoc d.consts n
  | .varO n => findValueDoc d.vars n
  | .funcO f =>
      let doc :=
        if !f.inScope || (f.inScope && parent != "") then
          findTypeFuncDoc d.types parent f.name (!f.inScope)
        else
          match findFuncDoc d.funcs f.name with
          | some s => s
          | none => ""
      let params := f.sig.params.map sigParamText
      let results := f.sig.results.map sigParamText
      let docSig :=
        f.name ++ "(" ++ String.intercalate ", " params ++ ") "
          ++ String.intercalate ", " results
      if doc != "" then docSig ++ "\n\n" ++ doc else docSig
  | .typeO n => findTypeDoc d.types n

/-! ## The model types (`Var`, `Signature`, `Func`, `Struct`, `Const`,
`Object`, `Package`) -/

/-- Modelled from the spec: the Variable Model (`Var`, built by `newVar` /
`newVarFrom` outside `src/`): semantic type, declared name, associated doc
text. -/
structure VarM where
  typ : GoType
  name : String
  doc : String
deriving DecidableEq, Repr

/-- The model `Signature`: results, parameters, optional receiver. -/
structure Signature where
  ret : List VarM
  args : List VarM
  recv : Option VarM
deriving DecidableEq, Repr

/-- The model of a go func/method (`Func`).  The Go struct's `pkg`
back-pointer and `typ` field (the signature as a `types.Type`) carry no
information used by the analysis and are not represented. -/
structure Func where
  sig : Signature
  name : String
  id : String
  doc : String
  ret : Option GoType
  err : Bool
  ctor : Bool
deriving DecidableEq, Repr

/-- The model of a go struct (`Struct`).  `objPkg`/`objName` are the stored
`*types.TypeName` object; `mset` is the pointer method set of the named type
(the consumed method-set query of the collaborator, kept with the object). -/
structure Struct where
  objPkg : String
  objName : String
  mset : List FuncObj
  id : String
  doc : String
  ctors : List Func
  meths : List Func
  prots : Nat
deriving DecidableEq, Repr

/-- `(Struct).GoType()`: the named type of the stored `TypeName` object. -/
def Struct.goType (s : Struct) : GoType :=
  GoType.named s.objPkg s.objName

/-- The model of a go constant (`Const`): identity, doc, the constant object's
name and type, and the synthesized zero-argument getter `Func`. -/
structure ConstM where
  name : String
  typ : GoType
  id : String
  doc : String
  f : Func
deriving DecidableEq, Repr

/-- The `bind.Object` values stored in the package lookup map: only structs
and funcs are ever registered there. -/
inductive Object where
  | structO : Struct → Object
  | funcO : Func → Object
deriving DecidableEq, Repr

/-- Process outcome tags: `fail` is a recoverable error returned to the
caller, `fatal` models the `panic` on unsupported declaration shapes. -/
inductive PErr where
  | fail : String → PErr
  | fatal : String → PErr
deriving DecidableEq, Repr

/-- The Package model: name, symbol table, lookup map, and the collected
constants, variables, structs and funcs. -/
structure Package where
  name : String
  syms : List (String × Decl)
  objs : List (String × Object)
  consts : List ConstM
  vars : List VarM
  structs : List Struct
  funcs : List Func
deriving DecidableEq, Repr

/-- The single python protocol bit currently detected
(`ProtoStringer Protocol = 1 << iota`). -/
def ProtoStringer : Nat := 1

/-- Modelled from the spec: the textual-representation capability test
(`isStringer`, defined outside `src/`): a no-argument method returning a
displayable string. -/
def isStringer (o : FuncObj) : Bool :=
  o.sig.params == [] &&
    match o.sig.results with
    | [r] => r.typ == GoType.basic "string"
    | _ => false

/-! ## The builders -/

/-- Modelled from the spec: `newVar` (outside `src/`) packs a semantic type,
a declared name and a doc text into a Variable Model. -/
def newVar (typ : GoType) (_objname name doc : String) : VarM :=
  { typ := typ, name := name, doc := doc }

/-- Modelled from the spec: `newVarFrom` (outside `src/`) builds the Variable
Model of a `types.Var`, resolving its doc from the variable bucket. -/
def newVarFrom (d : DocPackage) (v : GoVar) : VarM :=
  newVar v.typ v.name v.name (getDoc d "" (Obj.varO v.name))

/-- Translation of `newSignatureFrom`: map the Variable Model builder over
results, parameters and the optional receiver. -/
def newSignatureFrom (d : DocPackage) (sig : GoSig) : Signature :=
  { ret := sig.results.map (newVarFrom d)
    args := sig.params.map (newVarFrom d)
    recv := sig.recv.map (newVarFrom d) }

/-- Modelled from go/types object formatting: the `%s` rendering of a
`*types.Func` used in error messages names the declaration. -/
def objectString (o : FuncObj) : String :=
  "func " ++ o.pkgName ++ "." ++ o.name

/-- Translation of `newFuncFrom`: classify the result arity, build identity,
doc and signature.  With two results the second must be the error type; with
three or more the declaration is rejected. -/
def newFuncFrom (d : DocPackage) (parent : String) (obj : FuncObj) (sig : GoSig) :
    Except String Func :=
  let res := sig.results
  let classified : Except String (Bool × Option GoType) :=
    match res with
    | [r₁, r₂] =>
        if !(isErrorType r₂.typ) then
          Except.error ("bind: second result value must be of type error: " ++ objectString obj)
        else
          Except.ok (true, some r₁.typ)
    | [r] =>
        if isErrorType r.typ then Except.ok (true, none)
        else Except.ok (false, some r.typ)
    | [] => Except.ok (false, none)
    | _ => Except.error ("bind: too many results to return: " ++ objectString obj)
  match classified with
  | Except.error e => Except.error e
  | Except.ok (haserr, ret) =>
      let id :=
        if parent != "" then obj.pkgName ++ "_" ++ parent ++ "_" ++ obj.name
        else obj.pkgName ++ "_" ++ obj.name
      Except.ok
        { sig := newSignatureFrom d sig
          name := obj.name
          id := id
          doc := getDoc d parent (Obj.funcO obj)
          ret := ret
          err := haserr
          ctor := false }

/-- Translation of `newStruct`: identity from declaring package and name, doc
from the type bucket, empty constructor/method lists, no protocol bits. -/
def newStruct (d : DocPackage) (pk n : String) (ms : List FuncObj) : Struct :=
  { objPkg := pk
    objName := n
    mset := ms
    id := pk ++ "_" ++ n
    doc := getDoc d "" (Obj.typeO n)
    ctors := []
    meths := []
    prots := 0 }

/-- Translation of `newConst`: identity, doc, and the synthesized
zero-argument getter func returning the constant's type. -/
def newConst (d : DocPackage) (pk n : String) (typ : GoType) : ConstM :=
  let id := pk ++ "_" ++ n
  let doc := getDoc d "" (Obj.constO n)
  let res := [newVar typ "ret" n doc]
  let fct : Func :=
    { sig := { ret := res, args := [], recv := none }
      name := n
      id := "get_" ++ id
      doc := doc
      ret := some typ
      err := false
      ctor := false }
  { name := n, typ := typ, id := id, doc := doc, f := fct }

/-! ## The top-level walk (`process`, first pass) -/

/-- Overwrite-on-duplicate insertion into an association list; models Go map
assignment (and, via the symbol table, the spec's idempotent `addSymbol`
registration, whose implementation lives outside `src/`). -/
def mapInsert {α : Type} (k : String) (v : α) : List (String × α) → List (String × α)
  | [] => [(k, v)]
  | (k', v') :: rest => if k' == k then (k, v) :: rest else (k', v') :: mapInsert k v rest

/-- Association-list lookup; models Go map indexing. -/
def mapFind {α : Type} (k : String) : List (String × α) → Option α
  | [] => none
  | (k', v') :: rest => if k' == k then some v' else mapFind k rest

/-- The mutable state of the first pass over the scope: symbol table,
collected constants and variables, and the two working maps. -/
structure WalkSt where
  syms : List (String × Decl)
  consts : List ConstM
  vars : List VarM
  funcs : List (String × Func)
  structs : List (String × Struct)
deriving DecidableEq, Repr

/-- The empty first-pass state. -/
def initWalkSt : WalkSt :=
  { syms := [], consts := [], vars := [], funcs := [], structs := [] }

/-- One step of the scope walk: skip unexported declarations entirely;
register exported ones in the symbol table and dispatch on their kind.
Exported named types with a non-struct underlying shape hit the `panic`
(`fatal`). -/
def walkStep (d : DocPackage) (st : WalkSt) (dc : Decl) : Except PErr WalkSt :=
  if isExported dc.name = false then Except.ok st
  else
    let st := { st with syms := mapInsert dc.name dc st.syms }
    match dc with
    | .constD pk n t => Except.ok { st with consts := st.consts ++ [newConst d pk n t] }
    | .varD n t => Except.ok { st with vars := st.vars ++ [newVarFrom d (GoVar.mk n t)] }
    | .funcD obj =>
        match newFuncFrom d "" obj obj.sig with
        | Except.error e => Except.error (PErr.fail e)
        | Except.ok f => Except.ok { st with funcs := mapInsert obj.name f st.funcs }
    | .typeD pk n isStruct ms =>
        if isStruct then
          Except.ok { st with structs := mapInsert n (newStruct d pk n ms) st.structs }
        else
          Except.error (PErr.fatal ("not yet supported: " ++ n))

/-- The scope walk: left-to-right over `scope.Names()` (which go/types yields
in a fixed sorted order). -/
def walk (d : DocPackage) (st : WalkSt) : List Decl → Except PErr WalkSt
  | [] => Except.ok st
  | dc :: rest =>
      match walkStep d st dc with
      | Except.error e => Except.error e
      | Except.ok st' => walk d st' rest

/-! ## The reclassification pass (`process`, second pass) -/

/-- `scope.Lookup`: find the declaration registered under a name. -/
def scopeLookup (decls : List Decl) (n : String) : Option Decl :=
  decls.find? (fun dc => dc.name == n)

/-- Doc recomputation of a reclassified constructor:
`p.getDoc(sname, scope.Lookup(name))`. -/
def relookupDoc (d : DocPackage) (decls : List Decl) (sname n : String) : String :=
  match scopeLookup decls n with
  | some dc => getDoc d sname (declObj dc)
  | none => ""

/-- The value a matched free function is turned into when claimed as a
constructor: doc recomputed with the struct as enclosing scope, constructor
flag set. -/
def reclassify (d : DocPackage) (decls : List Decl) (sname : String)
    (nf : String × Func) : Func :=
  { nf.2 with doc := relookupDoc d decls sname nf.1, ctor := true }

/-- The inner constructor-extraction loop of `process`: walk the funcs map
(in the given range order); entries with no return type or a foreign return
type stay, entries whose return type is the struct's named type are deleted
from the map and appended, reclassified, to the struct's constructor list. -/
def ctorLoop (d : DocPackage) (decls : List Decl) (sname : String) (s : Struct) :
    List (String × Func) → Struct × List (String × Func)
  | [] => (s, [])
  | (n, f) :: rest =>
      if f.ret = none then
        let out := ctorLoop d decls sname s rest
        (out.1, (n, f) :: out.2)
      else if f.ret = some s.goType then
        ctorLoop d decls sname
          { s with ctors := s.ctors ++ [reclassify d decls sname (n, f)] } rest
      else
        let out := ctorLoop d decls sname s rest
        (out.1, (n, f) :: out.2)

/-- The method-set loop of `process`: for every exported method of the
pointer method set build its model with the struct as enclosing scope,
append it to the method list, and set the stringer protocol bit when the
method has the textual-representation shape. -/
def methLoop (d : DocPackage) (sname : String) (s : Struct) :
    List FuncObj → Except PErr Struct
  | [] => Except.ok s
  | m :: rest =>
      if isExported m.name = false then methLoop d sname s rest
      else
        match newFuncFrom d sname m m.sig with
        | Except.error e => Except.error (PErr.fail e)
        | Except.ok fm =>
            let s := { s with meths := s.meths ++ [fm] }
            let s := if isStringer m then { s with prots := s.prots ||| ProtoStringer } else s
            methLoop d sname s rest

/-- The outer reclassification loop over the structs map (in the given range
order for the structs map, re-ranging the funcs map with `ordF` at every
range point, as Go maps are ranged in unspecified order): extract
constructors, then attach the method set; returns the finished structs in
iteration order and the residual funcs map. -/
def reclassLoop (d : DocPackage) (decls : List Decl)
    (ordF : List (String × Func) → List (String × Func)) :
    List (String × Struct) → List (String × Func) →
      Except PErr (List Struct × List (String × Func))
  | [], funcs => Except.ok ([], funcs)
  | (sname, s) :: rest, funcs =>
      let out := ctorLoop d decls sname s (ordF funcs)
      match methLoop d sname out.1 s.mset with
      | Except.error e => Except.error e
      | Except.ok s2 =>
          match reclassLoop d decls ordF rest out.2 with
          | Except.error e => Except.error e
          | Except.ok (ss, fs) => Except.ok (s2 :: ss, fs)

/-- `(*Package).addStruct`: append to the struct list and register in the
lookup map under the Go name. -/
def addStruct (p : Package) (s : Struct) : Package :=
  { p with structs := p.structs ++ [s], objs := mapInsert s.objName (Object.structO s) p.objs }

/-- `(*Package).addFunc`: append to the func list and register in the lookup
map under the Go name. -/
def addFunc (p : Package) (f : Func) : Package :=
  { p with funcs := p.funcs ++ [f], objs := mapInsert f.name (Object.funcO f) p.objs }

/-- Translation of `(*Package).process`, parameterized by the unspecified Go
map range orders: `ordS` is the range order of the structs working map,
`ordF` the range order of the funcs working map at each of its range points.
The diagnostic symbol-table printout at the end is a pure side effect and has
no model.  The identity orders give the canonical (insertion-order) run. -/
def processOrd (ordS : List (String × Struct) → List (String × Struct))
    (ordF : List (String × Func) → List (String × Func))
    (pkgName : String) (d : DocPackage) (decls : List Decl) : Except PErr Package :=
  match walk d initWalkSt decls with
  | Except.error e => Except.error e
  | Except.ok st =>
      match reclassLoop d decls ordF (ordS st.structs) st.funcs with
      | Except.error e => Except.error e
      | Except.ok (ss, funcs) =>
          let p0 : Package :=
            { name := pkgName, syms := st.syms, objs := [], consts := st.consts
              vars := st.vars, structs := [], funcs := [] }
          let p1 := ss.foldl addStruct p0
          let p2 := (ordF funcs).foldl (fun p nf => addFunc p nf.2) p1
          Except.ok p2

/-- The canonical run of `process`: both working maps ranged in insertion
order. -/
def process (pkgName : String) (d : DocPackage) (decls : List Decl) : Except PErr Package :=
  processOrd id id pkgName d decls

/-- The declared name of a `types.Object` (`o.Name()`). -/
def Obj.goName : Obj → String
  | .constO n => n
  | .varO n => n
  | .funcO f => f.name
  | .typeO n => n

/-- Translation of `(*Package).Lookup`: resolve a `types.Object` to the model
object registered under its name. -/
def Package.Lookup (p : Package) (o : Obj) : Option Object :=
  mapFind o.goName p.objs

/-- Every identity string of the completed Package model: constants, structs,
free funcs, and each struct's constructors and methods.  (The Variable Model
carries no identity string.) -/
def allIds (p : Package) : List String :=
  p.consts.map (fun c => c.id) ++ p.structs.map (fun s => s.id)
    ++ p.funcs.map (fun f => f.id)
    ++ (p.structs.map (fun s => s.ctors.map (fun f => f.id) ++ s.meths.map (fun f => f.id))).flatten

/-- The constructor-detection test of the reclassification pass on one funcs
map entry: the model's return type equals the given named type
(`fct.Return() == s.GoType()`). -/
def retMatches (g : GoType) (nf : String × Func) : Bool :=
  nf.2.ret == some g

/-- The funcs-map entry a declaration contributes during a successful walk. -/
def funcEntry (d : DocPackage) : Decl → Option (String × Func)
  | Decl.funcD obj =>
      if isExported obj.name then
        (newFuncFrom d "" obj obj.sig).toOption.map (fun f => (obj.name, f))
      else none
  | _ => none

/-- The structs-map entry a declaration contributes during a successful
walk. -/
def structEntry (d : DocPackage) : Decl → Option (String × Struct)
  | Decl.typeD pk n true ms =>
      if isExported n then some (n, newStruct d pk n ms) else none
  | _ => none

/-- The constant model a declaration contributes during the walk. -/
def constEntry (d : DocPackage) : Decl → Option ConstM
  | Decl.constD pk n t => if isExported n then some (newConst d pk n t) else none
  | _ => none

/-- The variable model a declaration contributes during the walk. -/
def varEntry (d : DocPackage) : Decl → Option VarM
  | Decl.varD n t => if isExported n then some (newVarFrom d (GoVar.mk n t)) else none
  | _ => none

/-- The symbol-table entry a declaration contributes during the walk. -/
def symEntry : Decl → Option (String × Decl)
  | dc => if isExported dc.name then some (dc.name, dc) else none

/-- Invariant of the first-pass state: both working maps have distinct keys,
every funcs entry is the accepted model of an exported function declaration
registered under its own name, every structs entry is the `newStruct` model
of an exported struct declaration registered under its own name, and every
registered symbol is exported. -/
def WalkInv (d : DocPackage) (decls : List Decl) (st : WalkSt) : Prop :=
  (st.funcs.map Prod.fst).Nodup ∧
  (st.structs.map Prod.fst).Nodup ∧
  (∀ p ∈ st.funcs, ∃ obj : FuncObj, Decl.funcD obj ∈ decls ∧ isExported obj.name = true ∧
      obj.name = p.1 ∧ newFuncFrom d "" obj obj.sig = Except.ok p.2) ∧
  (∀ p ∈ st.structs, ∃ pk ms, Decl.typeD pk p.1 true ms ∈ decls ∧ isExported p.1 = true ∧
      p.2 = newStruct d pk p.1 ms) ∧
  (∀ p ∈ st.syms, isExported p.1 = true) ∧
  (∀ c ∈ st.consts, ∃ pk n t, Decl.constD pk n t ∈ decls ∧ isExported n = true ∧
      c = newConst d pk n t)

/-- What the reclassification pass produces for one structs-map entry, in
terms of the funcs map it draws constructors from: the finished struct is
the method-set elaboration of the recorded struct extended by the
reclassified models of the matching funcs entries (in some range order). -/
def StructOutcome (d : DocPackage) (decls : List Decl) (funcs : List (String × Func))
    (p : String × Struct) (st : Struct) : Prop :=
  ∃ cs, cs.Perm ((funcs.filter (retMatches p.2.goType)).map (reclassify d decls p.1)) ∧
    methLoop d p.1 { p.2 with ctors := p.2.ctors ++ cs } p.2.mset = Except.ok st

/-! ## Spec-side definitions (used to state refinement claims) -/

/-- The one-line signature the spec prescribes for callables:
`name(paramType [paramName], ...) resultType ...`, built from each
parameter/result's semantic type name and optional declared name. -/
def specSignatureLine (f : FuncObj) : String :=
  f.name ++ "(" ++ String.intercalate ", " (f.sig.params.map sigParamText) ++ ") "
    ++ String.intercalate ", " (f.sig.results.map sigParamText)

/-- The human doc text of a callable per the spec's bucket dispatch: free
functions (package-scope object, no enclosing-type context) read the
free-function bucket; otherwise the enclosing type's methods (method object)
or constructors (package-scope object with context) sub-bucket. -/
def callableDocText (d : DocPackage) (parent : String) (f : FuncObj) : String :=
  if !f.inScope || (f.inScope && parent != "") then
    findTypeFuncDoc d.types parent f.name (!f.inScope)
  else
    match findFuncDoc d.funcs f.name with
    | some s => s
    | none => ""

/-! ## Decidability of run comparison -/

instance {ε α : Type} [DecidableEq ε] [DecidableEq α] : DecidableEq (Except ε α) := fun a b =>
  match a, b with
  | Except.error e, Except.error e' =>
      if h : e = e' then isTrue (congrArg Except.error h)
      else isFalse (fun hc => h (Except.error.inj hc))
  | Except.error _, Except.ok _ => isFalse (fun hc => Except.noConfusion hc)
  | Except.ok _, Except.error _ => isFalse (fun hc => Except.noConfusion hc)
  | Except.ok x, Except.ok y =>
      if h : x = y then isTrue (congrArg Except.ok h)
      else isFalse (fun hc => h (Except.ok.inj hc))

/-! ## Concrete fixtures for witnesses and counterexamples -/

/-- An empty documentation tree. -/
def emptyDoc : DocPackage := DocPackage.mk [] [] [] []

/-- A default `Func`, used only to read back values known to exist. -/
def defaultFunc : Func := Func.mk (Signature.mk [] [] none) "" "" "" none false false

/-- A default `Package`, used only to read back values known to exist. -/
def defaultPkg : Package := Package.mk "" [] [] [] [] [] []

/-- The spec's example `Divide(a, b int) (int, error)`. -/
def divideObj : FuncObj :=
  FuncObj.mk "p" "Divide"
    (GoSig.mk none [GoVar.mk "a" (GoType.basic "int"), GoVar.mk "b" (GoType.basic "int")]
      [GoVar.mk "" (GoType.basic "int"), GoVar.mk "" GoType.errorT]) true

/-- The model built for `divideObj`. -/
def divideFunc : Func :=
  (newFuncFrom emptyDoc "" divideObj divideObj.sig).toOption.getD defaultFunc

/-- A declaration with two results whose second is not `error`. -/
def badDualObj : FuncObj :=
  FuncObj.mk "p" "Bad"
    (GoSig.mk none [] [GoVar.mk "" (GoType.basic "int"), GoVar.mk "" (GoType.basic "int")]) true

/-- A documented package-scope function `F()`. -/
def fWitObj : FuncObj := FuncObj.mk "p" "F" (GoSig.mk none [] []) true

/-- A default `Struct`, used only to read back values known to exist. -/
def defaultStruct : Struct := Struct.mk "" "" [] "" "" [] [] 0

/-- The spec's `geo` example: `type Point struct{...}` with method
`(p Point) String() string`, and `NewPoint(x, y int) Point`. -/
def geoDecls : List Decl :=
  [ Decl.funcD (FuncObj.mk "geo" "NewPoint"
      (GoSig.mk none [GoVar.mk "x" (GoType.basic "int"), GoVar.mk "y" (GoType.basic "int")]
        [GoVar.mk "" (GoType.named "geo" "Point")]) true),
    Decl.typeD "geo" "Point" true
      [FuncObj.mk "geo" "String"
        (GoSig.mk (some (GoVar.mk "p" (GoType.named "geo" "Point"))) []
          [GoVar.mk "" (GoType.basic "string")]) false,
       FuncObj.mk "geo" "hidden"
        (GoSig.mk (some (GoVar.mk "p" (GoType.named "geo" "Point"))) [] []) false] ]

/-- The Package model the canonical run produces for the `geo` example. -/
def geoPkg : Package := (process "geo" emptyDoc geoDecls).toOption.getD defaultPkg

/-- An unexported top-level declaration. -/
def lowDecl : Decl := Decl.varD "hidden" (GoType.basic "int")

/-- The `NewPoint` object of the `geo` example. -/
def npObj : FuncObj :=
  FuncObj.mk "geo" "NewPoint"
    (GoSig.mk none [GoVar.mk "x" (GoType.basic "int"), GoVar.mk "y" (GoType.basic "int")]
      [GoVar.mk "" (GoType.named "geo" "Point")]) true

/-- The model built for `NewPoint` during the walk. -/
def npFunc : Func := (newFuncFrom emptyDoc "" npObj npObj.sig).toOption.getD defaultFunc

/-- Two plain exported functions, enough to expose map range order. -/
def abDecls : List Decl :=
  [ Decl.funcD (FuncObj.mk "p" "A" (GoSig.mk none [] []) true),
    Decl.funcD (FuncObj.mk "p" "B" (GoSig.mk none [] []) true) ]

/-- The canonical run over `abDecls`. -/
def abPkg : Package := (processOrd id id "p" emptyDoc abDecls).toOption.getD defaultPkg

/-- A run over `abDecls` whose funcs map is ranged in reversed order. -/
def revPkg : Package :=
  (processOrd id List.reverse "p" emptyDoc abDecls).toOption.getD defaultPkg

/-- Does a string avoid the identity separator character? -/
def sepFree (s : String) : Bool := !(s.data.contains '_')

/-- Characters after the first separator. -/
def afterSepL : List Char → List Char
  | [] => []
  | c :: rest => if c = '_' then rest else afterSepL rest

/-- The substring after the first separator of an identity string. -/
def afterSep (s : String) : String := String.mk (afterSepL s.data)

/-- A scope whose distinct declaration names still produce a clash of
identity strings: the method `B_C` of struct `A` and the free function
`A_B_C` both render as `p_A_B_C`. -/
def clashDecls : List Decl :=
  [ Decl.typeD "p" "A" true
      [FuncObj.mk "p" "B_C"
        (GoSig.mk (some (GoVar.mk "a" (GoType.named "p" "A"))) [] []) false],
    Decl.funcD (FuncObj.mk "p" "A_B_C" (GoSig.mk none [] []) true) ]

/-- The Package model of the clashing scope. -/
def clashPkg : Package := (process "p" emptyDoc clashDecls).toOption.getD defaultPkg

/-- The name a declaration contributes to the top-level identity pool
(constants, structs, and the funcs working map all derive their identity
from the declaration name). -/
def topEntry : Decl → Option String
  | Decl.constD _ n _ => if isExported n then some n else none
  | Decl.typeD _ n true _ => if isExported n then some n else none
  | Decl.funcD o => if isExported o.name then some o.name else none
  | _ => none

/-- A doc tree carrying a free-function comment for `F`. -/
def fWitDoc : DocPackage := DocPackage.mk [] [] [] [DocFunc.mk "F" "hello"]

/-! ## General lemmas about the builders -/

/-- Fields of a successfully built `Func` that do not depend on the result
arity: name, identity, doc, constructor flag and signature. -/
theorem newFuncFrom_ok_fields (d : DocPackage) (parent : String) (obj : FuncObj)
    (sig : GoSig) (f : Func) (h : newFuncFrom d parent obj sig = Except.ok f) :
    f.name = obj.name ∧
    f.id = (if parent != "" then obj.pkgName ++ "_" ++ parent ++ "_" ++ obj.name
            else obj.pkgName ++ "_" ++ obj.name) ∧
    f.doc = getDoc d parent (Obj.funcO obj) ∧ f.ctor = false ∧
    f.sig = newSignatureFrom d sig := by
  rcases hres : sig.results with _ | ⟨r₁, _ | ⟨r₂, rest⟩⟩
  · simp only [newFuncFrom, hres] at h
    cases h
    simp
  · simp only [newFuncFrom, hres] at h
    by_cases he : isErrorType r₁.typ <;> simp only [he, if_pos, if_neg, ite_true, ite_false] at h <;>
      · cases h; simp
  · rcases rest with _ | ⟨r₃, rest⟩
    · simp only [newFuncFrom, hres] at h
      by_cases he : isErrorType r₂.typ
      · simp only [he, Bool.not_true, Bool.false_eq_true, if_false] at h
        cases h; simp
      · simp only [he, Bool.not_false, if_true] at h
        exact absurd h (by simp)
    · simp only [newFuncFrom, hres] at h
      exact absurd h (by simp)

/-! ## Association-list lemmas -/

theorem mem_mapInsert {α : Type} (k : String) (v : α) (m : List (String × α)) (p : String × α)
    (h : p ∈ mapInsert k v m) : p = (k, v) ∨ p ∈ m := by
  induction m with
  | nil => simpa [mapInsert] using h
  | cons q rest ih =>
      obtain ⟨k₀, v₀⟩ := q
      by_cases hk : k₀ = k
      · subst hk
        simp only [mapInsert, beq_self_eq_true, if_pos, List.mem_cons] at h
        rcases h with h | h
        · exact Or.inl h
        · exact Or.inr (List.mem_cons_of_mem _ h)
      · have hb : (k₀ == k) = false := by simpa using hk
        simp only [mapInsert, hb, Bool.false_eq_true, if_false, List.mem_cons] at h
        rcases h with h | h
        · exact Or.inr (List.mem_cons.mpr (Or.inl h))
        · rcases ih h with h' | h'
          · exact Or.inl h'
          · exact Or.inr (List.mem_cons_of_mem _ h')

theorem mapInsert_keys {α : Type} (k : String) (v : α) (m : List (String × α)) (k' : String) :
    k' ∈ (mapInsert k v m).map Prod.fst ↔ k' = k ∨ k' ∈ m.map Prod.fst := by
  induction m with
  | nil => simp [mapInsert]
  | cons q rest ih =>
      obtain ⟨k₀, v₀⟩ := q
      by_cases hk : k₀ = k
      · subst hk
        simp only [mapInsert, beq_self_eq_true, if_pos]
        simp
      · have hb : (k₀ == k) = false := by simpa using hk
        simp only [mapInsert, hb, Bool.false_eq_true, if_false]
        simp only [List.map_cons, List.mem_cons, ih]
        tauto

theorem mapInsert_keys_nodup {α : Type} (k : String) (v : α) (m : List (String × α))
    (h : (m.map Prod.fst).Nodup) : ((mapInsert k v m).map Prod.fst).Nodup := by
  induction m with
  | nil => simp [mapInsert]
  | cons q rest ih =>
      obtain ⟨k₀, v₀⟩ := q
      simp only [List.map_cons, List.nodup_cons] at h
      by_cases hk : k₀ = k
      · subst hk
        simp only [mapInsert, beq_self_eq_true, if_pos, List.map_cons, List.nodup_cons]
        exact h
      · have hb : (k₀ == k) = false := by simpa using hk
        simp only [mapInsert, hb, Bool.false_eq_true, if_false, List.map_cons, List.nodup_cons]
        refine ⟨?_, ih h.2⟩
        intro hc
        rcases (mapInsert_keys k v rest k₀).mp hc with h' | h'
        · exact hk h'
        · exact h.1 h'

theorem mapInsert_not_mem {α : Type} (k : String) (v : α) (m : List (String × α))
    (h : k ∉ m.map Prod.fst) : mapInsert k v m = m ++ [(k, v)] := by
  induction m with
  | nil => simp [mapInsert]
  | cons q rest ih =>
      obtain ⟨k₀, v₀⟩ := q
      simp only [List.map_cons, List.mem_cons] at h
      push_neg at h
      have hb : (k₀ == k) = false := by
        simpa using fun hc => h.1 hc.symm
      simp [mapInsert, hb, ih h.2]

theorem mapFind_isSome {α : Type} (k : String) (m : List (String × α)) :
    (mapFind k m).isSome ↔ k ∈ m.map Prod.fst := by
  induction m with
  | nil => simp [mapFind]
  | cons q rest ih =>
      obtain ⟨k₀, v₀⟩ := q
      by_cases hk : k₀ = k
      · subst hk
        simp [mapFind]
      · have hb : (k₀ == k) = false := by simpa using hk
        simp [mapFind, hb, ih, Ne.symm hk]

theorem mapFind_mem {α : Type} (k : String) (m : List (String × α)) (v : α)
    (h : mapFind k m = some v) : (k, v) ∈ m := by
  induction m with
  | nil => simp [mapFind] at h
  | cons q rest ih =>
      obtain ⟨k₀, v₀⟩ := q
      by_cases hk : k₀ = k
      · subst hk
        simp only [mapFind, beq_self_eq_true, if_pos, Option.some.injEq] at h
        subst h
        exact List.mem_cons_self _ _
      · have hb : (k₀ == k) = false := by simpa using hk
        simp only [mapFind, hb, Bool.false_eq_true, if_false] at h
        exact List.mem_cons_of_mem _ (ih h)

/-! ## Characterization of the inner reclassification loops -/

/-- Updating the constructor list of a struct leaves its named type
unchanged. -/
theorem goType_set_ctors (s : Struct) (cs : List Func) :
    (({ s with ctors := cs } : Struct)).goType = s.goType := rfl

/-- The constructor-extraction loop moves exactly the matching entries, in
iteration order, and keeps the rest in order. -/
theorem ctorLoop_eq (d : DocPackage) (decls : List Decl) (sname : String) (s : Struct)
    (l : List (String × Func)) :
    ctorLoop d decls sname s l =
      ({ s with ctors := s.ctors ++
          (l.filter (retMatches s.goType)).map (reclassify d decls sname) },
       l.filter (fun nf => !(retMatches s.goType nf))) := by
  induction l generalizing s with
  | nil => simp [ctorLoop]
  | cons nf rest ih =>
      obtain ⟨n, f⟩ := nf
      by_cases h0 : f.ret = none
      · have hm : retMatches s.goType (n, f) = false := by
          simp [retMatches, h0]
        simp [ctorLoop, h0, ih, hm, List.filter_cons]
      · by_cases h1 : f.ret = some s.goType
        · have hm : retMatches s.goType (n, f) = true := by
            simp [retMatches, h1]
          rw [show ctorLoop d decls sname s ((n, f) :: rest) =
              ctorLoop d decls sname
                { s with ctors := s.ctors ++ [reclassify d decls sname (n, f)] } rest from by
            simp [ctorLoop, h0, h1]]
          rw [ih, goType_set_ctors]
          simp [List.filter_cons, hm, List.append_assoc]
        · have hm : retMatches s.goType (n, f) = false := by
            simp [retMatches, h1]
          simp [ctorLoop, h0, h1, ih, hm, List.filter_cons]

theorem methLoop_cons_exported (d : DocPackage) (sname : String) (m : FuncObj)
    (rest : List FuncObj) (s : Struct) (he : isExported m.name = true) :
    methLoop d sname s (m :: rest) =
      (match newFuncFrom d sname m m.sig with
       | Except.error e => Except.error (PErr.fail e)
       | Except.ok fm =>
           methLoop d sname
             { s with meths := s.meths ++ [fm],
                      prots := if isStringer m then s.prots ||| ProtoStringer
                               else s.prots } rest) := by
  simp only [methLoop, he, Bool.true_eq_false, if_neg, not_false_iff]
  rcases newFuncFrom d sname m m.sig with e | fm
  · rfl
  · by_cases hs : isStringer m <;> simp [hs]

/-- A successful method-set loop copies every struct field except the method
list — which is extended by the models of the exported methods, in order —
and the protocol mask, which gains the stringer bit exactly when an exported
textual-representation method is present. -/
theorem methLoop_ok_char (d : DocPackage) (sname : String) (ms : List FuncObj)
    (s s' : Struct) (h : methLoop d sname s ms = Except.ok s') :
    s'.objPkg = s.objPkg ∧ s'.objName = s.objName ∧ s'.mset = s.mset ∧
    s'.id = s.id ∧ s'.doc = s.doc ∧ s'.ctors = s.ctors ∧
    (∃ fs, s'.meths = s.meths ++ fs ∧
      List.Forall₂ (fun m fm => newFuncFrom d sname m m.sig = Except.ok fm)
        (ms.filter (fun m => isExported m.name)) fs) ∧
    s'.prots = s.prots |||
      (if ms.any (fun m => isExported m.name && isStringer m) then ProtoStringer else 0) := by
  induction ms generalizing s with
  | nil =>
      simp only [methLoop] at h
      cases h
      simp
  | cons m rest ih =>
      by_cases he : isExported m.name
      · rw [methLoop_cons_exported d sname m rest s he] at h
        rcases hf : newFuncFrom d sname m m.sig with e | fm
        · rw [hf] at h
          exact absurd h (by simp)
        · rw [hf] at h
          by_cases hs : isStringer m
          · rw [show (if isStringer m then s.prots ||| ProtoStringer else s.prots)
                = s.prots ||| ProtoStringer from by simp [hs]] at h
            obtain ⟨h1, h2, h3, h4, h5, h6, ⟨fs, hfs, hall⟩, h8⟩ := ih _ h
            refine ⟨h1, h2, h3, h4, h5, h6, ⟨fm :: fs, ?_, ?_⟩, ?_⟩
            · simpa [List.append_assoc] using hfs
            · simp only [List.filter_cons, he, ite_true]
              exact List.Forall₂.cons hf hall
            · rw [h8]
              simp only [List.any_cons, he, hs, Bool.true_and, Bool.and_true, Bool.true_or,
                ite_true]
              rcases hany : rest.any (fun m => isExported m.name && isStringer m) <;>
                simp [hany, ProtoStringer, Nat.lor_assoc]
          · have hsb : isStringer m = false := by simpa using hs
            rw [show (if isStringer m then s.prots ||| ProtoStringer else s.prots)
                = s.prots from by simp [hsb]] at h
            obtain ⟨h1, h2, h3, h4, h5, h6, ⟨fs, hfs, hall⟩, h8⟩ := ih _ h
            refine ⟨h1, h2, h3, h4, h5, h6, ⟨fm :: fs, ?_, ?_⟩, ?_⟩
            · simpa [List.append_assoc] using hfs
            · simp only [List.filter_cons, he, ite_true]
              exact List.Forall₂.cons hf hall
            · rw [h8]
              simp [List.any_cons, he, hsb]
      · have heb : isExported m.name = false := by simpa using he
        rw [show methLoop d sname s (m :: rest) = methLoop d sname s rest from by
          simp [methLoop, heb]] at h
        obtain ⟨h1, h2, h3, h4, h5, h6, h7, h8⟩ := ih _ h
        refine ⟨h1, h2, h3, h4, h5, h6, ?_, ?_⟩
        · simpa [List.filter_cons, heb] using h7
        · rw [h8]
          simp [List.any_cons, heb]

/-- The method-set loop succeeds exactly when every exported method of the
set is accepted by the callable builder; success does not depend on the
struct being extended. -/
theorem methLoop_ok_iff (d : DocPackage) (sname : String) (ms : List FuncObj) (s : Struct) :
    (∃ s', methLoop d sname s ms = Except.ok s') ↔
      ∀ m ∈ ms, isExported m.name = true →
        ∃ fm, newFuncFrom d sname m m.sig = Except.ok fm := by
  induction ms generalizing s with
  | nil => simp [methLoop]
  | cons m rest ih =>
      by_cases he : isExported m.name
      · rw [methLoop_cons_exported d sname m rest s he]
        cases hf : newFuncFrom d sname m m.sig with
        | error e =>
          constructor
          · rintro ⟨s', hs'⟩
            exact absurd hs' (by simp)
          · intro hall
            obtain ⟨fm, hfm⟩ := hall m (List.mem_cons_self _ _) he
            rw [hf] at hfm
            cases hfm
        | ok fm =>
          constructor
          · rintro ⟨s', hs'⟩
            intro m' hm' he'
            rcases List.mem_cons.mp hm' with rfl | hm'
            · exact ⟨fm, hf⟩
            · exact (ih _).mp ⟨s', hs'⟩ m' hm' he'
          · intro hall
            exact (ih _).mpr (fun m' hm' he' => hall m' (List.mem_cons_of_mem _ hm') he')
      · have heb : isExported m.name = false := by simpa using he
        rw [show methLoop d sname s (m :: rest) = methLoop d sname s rest from by
          simp [methLoop, heb]]
        constructor
        · intro hx m' hm' he'
          rcases List.mem_cons.mp hm' with rfl | hm'
          · exact absurd he' (by simp [heb])
          · exact (ih _).mp hx m' hm' he'
        · intro hall
          exact (ih _).mpr (fun m' hm' he' => hall m' (List.mem_cons_of_mem _ hm') he')

/-! ## Shapes of one walk step -/

theorem walkStep_unexported (d : DocPackage) (st : WalkSt) (dc : Decl)
    (h : isExported dc.name = false) : walkStep d st dc = Except.ok st := by
  simp [walkStep, h]

theorem walkStep_constD (d : DocPackage) (st : WalkSt) (pk n : String) (t : GoType)
    (h : isExported n = true) :
    walkStep d st (Decl.constD pk n t) =
      Except.ok { st with syms := mapInsert n (Decl.constD pk n t) st.syms,
                          consts := st.consts ++ [newConst d pk n t] } := by
  simp [walkStep, Decl.name, h]

theorem walkStep_varD (d : DocPackage) (st : WalkSt) (n : String) (t : GoType)
    (h : isExported n = true) :
    walkStep d st (Decl.varD n t) =
      Except.ok { st with syms := mapInsert n (Decl.varD n t) st.syms,
                          vars := st.vars ++ [newVarFrom d (GoVar.mk n t)] } := by
  simp [walkStep, Decl.name, h]

theorem walkStep_funcD (d : DocPackage) (st : WalkSt) (obj : FuncObj) (f : Func)
    (h : isExported obj.name = true) (hok : newFuncFrom d "" obj obj.sig = Except.ok f) :
    walkStep d st (Decl.funcD obj) =
      Except.ok { st with syms := mapInsert obj.name (Decl.funcD obj) st.syms,
                          funcs := mapInsert obj.name f st.funcs } := by
  simp [walkStep, Decl.name, h, hok]

theorem walkStep_funcD_err (d : DocPackage) (st : WalkSt) (obj : FuncObj) (e : String)
    (h : isExported obj.name = true) (hok : newFuncFrom d "" obj obj.sig = Except.error e) :
    walkStep d st (Decl.funcD obj) = Except.error (PErr.fail e) := by
  simp [walkStep, Decl.name, h, hok]

theorem walkStep_typeD (d : DocPackage) (st : WalkSt) (pk n : String) (ms : List FuncObj)
    (h : isExported n = true) :
    walkStep d st (Decl.typeD pk n true ms) =
      Except.ok { st with syms := mapInsert n (Decl.typeD pk n true ms) st.syms,
                          structs := mapInsert n (newStruct d pk n ms) st.structs } := by
  simp [walkStep, Decl.name, h]

theorem walkStep_typeD_bad (d : DocPackage) (st : WalkSt) (pk n : String) (ms : List FuncObj)
    (h : isExported n = true) :
    walkStep d st (Decl.typeD pk n false ms) =
      Except.error (PErr.fatal ("not yet supported: " ++ n)) := by
  simp [walkStep, Decl.name, h]

/-! ## The walk invariant -/

theorem walkStep_inv (d : DocPackage) (decls : List Decl) (st st' : WalkSt) (dc : Decl)
    (hdc : dc ∈ decls) (hinv : WalkInv d decls st)
    (h : walkStep d st dc = Except.ok st') : WalkInv d decls st' := by
  obtain ⟨hnf, hns, hmf, hms, hsy, hco⟩ := hinv
  by_cases hex : isExported dc.name
  · cases dc with
    | constD pk n t =>
        rw [walkStep_constD d st pk n t hex] at h
        cases h
        refine ⟨hnf, hns, hmf, hms, ?_, ?_⟩
        · intro p hp
          rcases mem_mapInsert _ _ _ _ hp with rfl | hp
          · exact hex
          · exact hsy p hp
        · intro c hc
          rcases List.mem_append.mp hc with hc | hc
          · exact hco c hc
          · rcases List.mem_singleton.mp hc with rfl
            exact ⟨pk, n, t, hdc, hex, rfl⟩
    | varD n t =>
        rw [walkStep_varD d st n t hex] at h
        cases h
        refine ⟨hnf, hns, hmf, hms, ?_, hco⟩
        intro p hp
        rcases mem_mapInsert _ _ _ _ hp with rfl | hp
        · exact hex
        · exact hsy p hp
    | funcD obj =>
        rcases hok : newFuncFrom d "" obj obj.sig with e | f
        · rw [walkStep_funcD_err d st obj e hex hok] at h
          cases h
        · rw [walkStep_funcD d st obj f hex hok] at h
          cases h
          refine ⟨mapInsert_keys_nodup _ _ _ hnf, hns, ?_, hms, ?_, hco⟩
          · intro p hp
            rcases mem_mapInsert _ _ _ _ hp with rfl | hp
            · exact ⟨obj, hdc, hex, rfl, hok⟩
            · exact hmf p hp
          · intro p hp
            rcases mem_mapInsert _ _ _ _ hp with rfl | hp
            · exact hex
            · exact hsy p hp
    | typeD pk n b ms =>
        cases b
        · rw [walkStep_typeD_bad d st pk n ms hex] at h
          cases h
        · rw [walkStep_typeD d st pk n ms hex] at h
          cases h
          refine ⟨hnf, mapInsert_keys_nodup _ _ _ hns, hmf, ?_, ?_, hco⟩
          · intro p hp
            rcases mem_mapInsert _ _ _ _ hp with rfl | hp
            · exact ⟨pk, ms, hdc, hex, rfl⟩
            · exact hms p hp
          · intro p hp
            rcases mem_mapInsert _ _ _ _ hp with rfl | hp
            · exact hex
            · exact hsy p hp
  · have hexf : isExported dc.name = false := by simpa using hex
    rw [walkStep_unexported d st dc hexf] at h
    cases h
    exact ⟨hnf, hns, hmf, hms, hsy, hco⟩

theorem walk_inv (d : DocPackage) (decls : List Decl) (dcs : List Decl) (st st' : WalkSt)
    (hsub : ∀ dc ∈ dcs, dc ∈ decls) (hinv : WalkInv d decls st)
    (h : walk d st dcs = Except.ok st') : WalkInv d decls st' := by
  induction dcs generalizing st with
  | nil =>
      simp only [walk] at h
      cases h
      exact hinv
  | cons dc rest ih =>
      simp only [walk] at h
      rcases hstep : walkStep d st dc with e | st₂
      · rw [hstep] at h
        cases h
      · rw [hstep] at h
        exact ih _ (fun x hx => hsub x (List.mem_cons_of_mem _ hx))
          (walkStep_inv d decls st st₂ dc (hsub dc (List.mem_cons_self _ _)) hinv hstep) h

theorem initWalkSt_inv (d : DocPackage) (decls : List Decl) : WalkInv d decls initWalkSt := by
  refine ⟨?_, ?_, ?_, ?_, ?_, ?_⟩ <;> simp [initWalkSt]

/-! ## Entries contributed by skipped declarations -/

theorem funcEntry_unexported (d : DocPackage) (dc : Decl) (h : isExported dc.name = false) :
    funcEntry d dc = none := by
  cases dc <;> simp_all [funcEntry, Decl.name]

theorem structEntry_unexported (d : DocPackage) (dc : Decl) (h : isExported dc.name = false) :
    structEntry d dc = none := by
  cases dc with
  | typeD pk n b ms => cases b <;> simp_all [structEntry, Decl.name]
  | _ => rfl

theorem constEntry_unexported (d : DocPackage) (dc : Decl) (h : isExported dc.name = false) :
    constEntry d dc = none := by
  cases dc <;> simp_all [constEntry, Decl.name]

theorem varEntry_unexported (d : DocPackage) (dc : Decl) (h : isExported dc.name = false) :
    varEntry d dc = none := by
  cases dc <;> simp_all [varEntry, Decl.name]

theorem symEntry_unexported (dc : Decl) (h : isExported dc.name = false) :
    symEntry dc = none := by
  simp [symEntry, h]

/-! ## Closed form of a successful walk over distinct fresh names -/

theorem walk_cons_ok (d : DocPackage) (st st₂ : WalkSt) (dc : Decl) (rest : List Decl)
    (hstep : walkStep d st dc = Except.ok st₂) :
    walk d st (dc :: rest) = walk d st₂ rest := by
  simp [walk, hstep]

theorem walk_cons_err (d : DocPackage) (st : WalkSt) (dc : Decl) (rest : List Decl) (e : PErr)
    (hstep : walkStep d st dc = Except.error e) :
    walk d st (dc :: rest) = Except.error e := by
  simp [walk, hstep]

theorem walk_char (d : DocPackage) (dcs : List Decl) (st st' : WalkSt)
    (h : walk d st dcs = Except.ok st')
    (hnodup : (dcs.map Decl.name).Nodup)
    (hfresh : ∀ dc ∈ dcs, isExported dc.name = true →
      dc.name ∉ st.funcs.map Prod.fst ∧ dc.name ∉ st.structs.map Prod.fst ∧
      dc.name ∉ st.syms.map Prod.fst) :
    st'.funcs = st.funcs ++ dcs.filterMap (funcEntry d) ∧
    st'.structs = st.structs ++ dcs.filterMap (structEntry d) ∧
    st'.consts = st.consts ++ dcs.filterMap (constEntry d) ∧
    st'.vars = st.vars ++ dcs.filterMap (varEntry d) ∧
    st'.syms = st.syms ++ dcs.filterMap symEntry := by
  induction dcs generalizing st with
  | nil =>
      simp only [walk] at h
      cases h
      simp
  | cons dc rest ih =>
      rw [List.map_cons, List.nodup_cons] at hnodup
      have hnodup' : (rest.map Decl.name).Nodup := hnodup.2
      have hhead : dc.name ∉ rest.map Decl.name := hnodup.1
      by_cases hex : isExported dc.name
      · have hfr := hfresh dc (List.mem_cons_self _ _) hex
        have hnedc : ∀ dc' ∈ rest, dc'.name ≠ dc.name := by
          intro dc' hdc' hc
          exact hhead (hc ▸ List.mem_map_of_mem Decl.name hdc')
        cases dc with
        | constD pk n t =>
            have hexn : isExported n = true := by simpa [Decl.name] using hex
            rw [walk_cons_ok d st _ _ rest (walkStep_constD d st pk n t hex)] at h
            obtain ⟨e1, e2, e3, e4, e5⟩ := ih _ h hnodup' (by
              intro dc' hdc' hex'
              obtain ⟨h1, h2, h3⟩ := hfresh dc' (List.mem_cons_of_mem _ hdc') hex'
              refine ⟨by simpa using h1, by simpa using h2, ?_⟩
              simp only [mapInsert_keys]
              push_neg
              exact ⟨hnedc dc' hdc', h3⟩)
            rw [mapInsert_not_mem n (Decl.constD pk n t) st.syms
              (by simpa [Decl.name] using hfr.2.2)] at e5
            refine ⟨?_, ?_, ?_, ?_, ?_⟩ <;>
              simp [e1, e2, e3, e4, e5, List.filterMap_cons, constEntry, symEntry, funcEntry,
                structEntry, varEntry, Decl.name, hexn, List.append_assoc]
        | varD n t =>
            have hexn : isExported n = true := by simpa [Decl.name] using hex
            rw [walk_cons_ok d st _ _ rest (walkStep_varD d st n t hex)] at h
            obtain ⟨e1, e2, e3, e4, e5⟩ := ih _ h hnodup' (by
              intro dc' hdc' hex'
              obtain ⟨h1, h2, h3⟩ := hfresh dc' (List.mem_cons_of_mem _ hdc') hex'
              refine ⟨by simpa using h1, by simpa using h2, ?_⟩
              simp only [mapInsert_keys]
              push_neg
              exact ⟨hnedc dc' hdc', h3⟩)
            rw [mapInsert_not_mem n (Decl.varD n t) st.syms
              (by simpa [Decl.name] using hfr.2.2)] at e5
            refine ⟨?_, ?_, ?_, ?_, ?_⟩ <;>
              simp [e1, e2, e3, e4, e5, List.filterMap_cons, constEntry, symEntry, funcEntry,
                structEntry, varEntry, Decl.name, hexn, List.append_assoc]
        | funcD obj =>
            rcases hok : newFuncFrom d "" obj obj.sig with e | f
            · rw [walk_cons_err d st _ rest _ (walkStep_funcD_err d st obj e hex hok)] at h
              exact absurd h (by simp)
            · have hexn : isExported obj.name = true := by simpa [Decl.name] using hex
              rw [walk_cons_ok d st _ _ rest (walkStep_funcD d st obj f hex hok)] at h
              obtain ⟨e1, e2, e3, e4, e5⟩ := ih _ h hnodup' (by
                intro dc' hdc' hex'
                obtain ⟨h1, h2, h3⟩ := hfresh dc' (List.mem_cons_of_mem _ hdc') hex'
                refine ⟨?_, by simpa using h2, ?_⟩ <;>
                · simp only [mapInsert_keys]
                  push_neg
                  exact ⟨hnedc dc' hdc', by assumption⟩)
              rw [mapInsert_not_mem obj.name f st.funcs
                (by simpa [Decl.name] using hfr.1)] at e1
              rw [mapInsert_not_mem obj.name (Decl.funcD obj) st.syms
                (by simpa [Decl.name] using hfr.2.2)] at e5
              refine ⟨?_, ?_, ?_, ?_, ?_⟩ <;>
                simp [e1, e2, e3, e4, e5, List.filterMap_cons, constEntry, symEntry, funcEntry,
                  structEntry, varEntry, Decl.name, hexn, hok, Except.toOption, Option.map,
                  List.append_assoc]
        | typeD pk n b ms =>
            cases b
            · rw [walk_cons_err d st _ rest _ (walkStep_typeD_bad d st pk n ms hex)] at h
              exact absurd h (by simp)
            · have hexn : isExported n = true := by simpa [Decl.name] using hex
              rw [walk_cons_ok d st _ _ rest (walkStep_typeD d st pk n ms hex)] at h
              obtain ⟨e1, e2, e3, e4, e5⟩ := ih _ h hnodup' (by
                intro dc' hdc' hex'
                obtain ⟨h1, h2, h3⟩ := hfresh dc' (List.mem_cons_of_mem _ hdc') hex'
                refine ⟨by simpa using h1, ?_, ?_⟩ <;>
                · simp only [mapInsert_keys]
                  push_neg
                  exact ⟨hnedc dc' hdc', by assumption⟩)
              rw [mapInsert_not_mem n (newStruct d pk n ms) st.structs
                (by simpa [Decl.name] using hfr.2.1)] at e2
              rw [mapInsert_not_mem n (Decl.typeD pk n true ms) st.syms
                (by simpa [Decl.name] using hfr.2.2)] at e5
              refine ⟨?_, ?_, ?_, ?_, ?_⟩ <;>
                simp [e1, e2, e3, e4, e5, List.filterMap_cons, constEntry, symEntry, funcEntry,
                  structEntry, varEntry, Decl.name, hexn, List.append_assoc]
      · have hexf : isExported dc.name = false := by simpa using hex
        rw [walk_cons_ok d st _ _ rest (walkStep_unexported d st dc hexf)] at h
        obtain ⟨e1, e2, e3, e4, e5⟩ := ih _ h hnodup'
          (fun dc' hdc' hex' => hfresh dc' (List.mem_cons_of_mem _ hdc') hex')
        simp [e1, e2, e3, e4, e5, List.filterMap_cons, funcEntry_unexported d dc hexf,
          structEntry_unexported d dc hexf, constEntry_unexported d dc hexf,
          varEntry_unexported d dc hexf, symEntry_unexported dc hexf]

/-! ## Characterization of the outer reclassification loop -/

theorem reclassLoop_cons_ok (d : DocPackage) (decls : List Decl)
    (ordF : List (String × Func) → List (String × Func)) (sname : String) (s : Struct)
    (rest : List (String × Struct)) (funcs : List (String × Func)) (ss : List Struct)
    (fs : List (String × Func))
    (h : reclassLoop d decls ordF ((sname, s) :: rest) funcs = Except.ok (ss, fs)) :
    ∃ s2 ss', ss = s2 :: ss' ∧
      methLoop d sname ((ctorLoop d decls sname s (ordF funcs)).1) s.mset = Except.ok s2 ∧
      reclassLoop d decls ordF rest ((ctorLoop d decls sname s (ordF funcs)).2) =
        Except.ok (ss', fs) := by
  simp only [reclassLoop] at h
  rcases hm : methLoop d sname ((ctorLoop d decls sname s (ordF funcs)).1) s.mset with e | s2
  · rw [hm] at h
    exact absurd h (by simp)
  · rw [hm] at h
    rcases hr : reclassLoop d decls ordF rest ((ctorLoop d decls sname s (ordF funcs)).2)
      with e | pr
    · rw [hr] at h
      exact absurd h (by simp)
    · obtain ⟨ss', fs'⟩ := pr
      rw [hr] at h
      simp only [Except.ok.injEq, Prod.mk.injEq] at h
      exact ⟨s2, ss', h.1.symm, rfl, by rw [h.2]⟩

theorem reclassLoop_cons_mk (d : DocPackage) (decls : List Decl)
    (ordF : List (String × Func) → List (String × Func)) (sname : String) (s : Struct)
    (rest : List (String × Struct)) (funcs : List (String × Func)) (s2 : Struct)
    (ss : List Struct) (fs : List (String × Func))
    (hm : methLoop d sname ((ctorLoop d decls sname s (ordF funcs)).1) s.mset = Except.ok s2)
    (hr : reclassLoop d decls ordF rest ((ctorLoop d decls sname s (ordF funcs)).2) =
      Except.ok (ss, fs)) :
    reclassLoop d decls ordF ((sname, s) :: rest) funcs = Except.ok (s2 :: ss, fs) := by
  simp only [reclassLoop, hm, hr]

/-- Matching against two distinct named types is mutually exclusive. -/
theorem retMatches_disjoint (g g' : GoType) (hne : g ≠ g') (nf : String × Func) :
    (retMatches g nf && !(retMatches g' nf)) = retMatches g nf := by
  rcases hr : retMatches g nf
  · simp
  · simp only [Bool.true_and]
    have hg : nf.2.ret = some g := by simpa [retMatches] using hr
    have : retMatches g' nf = false := by
      simp [retMatches, hg, hne]
    simp [this]

/-- A `Forall₂` transport that provides membership of the left element. -/
theorem forall₂_imp_mem {α β : Type} {R S : α → β → Prop} :
    ∀ {l₁ : List α} {l₂ : List β}, List.Forall₂ R l₁ l₂ →
      (∀ a ∈ l₁, ∀ b, R a b → S a b) → List.Forall₂ S l₁ l₂
  | _, _, List.Forall₂.nil, _ => List.Forall₂.nil
  | _, _, List.Forall₂.cons hr hrest, himp =>
      List.Forall₂.cons (himp _ (List.mem_cons_self _ _) _ hr)
        (forall₂_imp_mem hrest (fun a ha b hb => himp a (List.mem_cons_of_mem _ ha) b hb))

/-- The residual funcs map of the reclassification pass consists, up to the
range orders, of exactly the entries claimed by no struct. -/
theorem reclassLoop_funcs (d : DocPackage) (decls : List Decl)
    (ordF : List (String × Func) → List (String × Func))
    (hF : ∀ l, (ordF l).Perm l)
    (slist : List (String × Struct)) (funcs : List (String × Func))
    (ss : List Struct) (fs : List (String × Func))
    (h : reclassLoop d decls ordF slist funcs = Except.ok (ss, fs)) :
    fs.Perm (funcs.filter (fun nf => slist.all (fun p => !(retMatches p.2.goType nf)))) := by
  induction slist generalizing funcs ss with
  | nil =>
      simp only [reclassLoop] at h
      simp only [Except.ok.injEq, Prod.mk.injEq] at h
      rw [← h.2]
      simp
  | cons p rest ih =>
      obtain ⟨sname, s⟩ := p
      obtain ⟨s2, ss', rfl, hm, hr⟩ := reclassLoop_cons_ok d decls ordF sname s rest funcs ss fs h
      have hrem : (ctorLoop d decls sname s (ordF funcs)).2 =
          (ordF funcs).filter (fun nf => !(retMatches s.goType nf)) := by
        rw [ctorLoop_eq]
      rw [hrem] at hr
      have h1 := ih _ _ hr
      have h2 : (((ordF funcs).filter (fun nf => !(retMatches s.goType nf))).filter
          (fun nf => rest.all (fun p => !(retMatches p.2.goType nf)))).Perm
          ((funcs.filter (fun nf => !(retMatches s.goType nf))).filter
          (fun nf => rest.all (fun p => !(retMatches p.2.goType nf)))) :=
        ((hF funcs).filter _).filter _
      have h3 : (funcs.filter (fun nf => !(retMatches s.goType nf))).filter
          (fun nf => rest.all (fun p => !(retMatches p.2.goType nf)))
          = funcs.filter
            (fun nf => ((sname, s) :: rest).all (fun p => !(retMatches p.2.goType nf))) := by
        rw [List.filter_filter]
        apply List.filter_congr
        intro nf _
        simp [List.all_cons, Bool.and_comm]
      rw [← h3]
      exact h1.trans h2

/-- Per-struct outcome of the reclassification pass: each structs-map entry
is finished into the method-set elaboration of itself extended by the
reclassified matching funcs entries, where (given distinct struct keys) the
matching entries can be read off the ORIGINAL funcs map: no other struct
steals them. -/
theorem reclassLoop_structs (d : DocPackage) (decls : List Decl)
    (ordF : List (String × Func) → List (String × Func))
    (hF : ∀ l, (ordF l).Perm l)
    (slist : List (String × Struct)) (funcs : List (String × Func)) (ss : List Struct)
    (fs : List (String × Func))
    (hnames : (slist.map Prod.fst).Nodup)
    (hobj : ∀ p ∈ slist, p.2.objName = p.1)
    (h : reclassLoop d decls ordF slist funcs = Except.ok (ss, fs)) :
    List.Forall₂ (StructOutcome d decls funcs) slist ss := by
  induction slist generalizing funcs ss fs with
  | nil =>
      simp only [reclassLoop] at h
      simp only [Except.ok.injEq, Prod.mk.injEq] at h
      rw [← h.1]
      exact List.Forall₂.nil
  | cons p rest ih =>
      obtain ⟨sname, s⟩ := p
      rw [List.map_cons, List.nodup_cons] at hnames
      obtain ⟨s2, ss', rfl, hm, hr⟩ := reclassLoop_cons_ok d decls ordF sname s rest funcs ss fs h
      have hcs : (ctorLoop d decls sname s (ordF funcs)).1 =
          { s with ctors := s.ctors ++
            ((ordF funcs).filter (retMatches s.goType)).map (reclassify d decls sname) } := by
        rw [ctorLoop_eq]
      have hrem : (ctorLoop d decls sname s (ordF funcs)).2 =
          (ordF funcs).filter (fun nf => !(retMatches s.goType nf)) := by
        rw [ctorLoop_eq]
      rw [hcs] at hm
      rw [hrem] at hr
      refine List.Forall₂.cons ?_ ?_
      · exact ⟨((ordF funcs).filter (retMatches s.goType)).map (reclassify d decls sname),
          ((hF funcs).filter _).map _, hm⟩
      · have htail := ih _ _ _ hnames.2 (fun p hp => hobj p (List.mem_cons_of_mem _ hp)) hr
        refine forall₂_imp_mem htail ?_
        rintro ⟨n', s'⟩ hp' st ⟨cs, hperm, hml⟩
        have hgne : s'.goType ≠ s.goType := by
          have h1 : s'.objName = n' := hobj (n', s') (List.mem_cons_of_mem _ hp')
          have h2 : s.objName = sname := hobj (sname, s) (List.mem_cons_self _ _)
          have hne : n' ≠ sname := by
            intro hc
            subst hc
            exact hnames.1 (by simpa using List.mem_map_of_mem Prod.fst hp')
          simp [Struct.goType, h1, h2, hne]
        refine ⟨cs, hperm.trans ?_, hml⟩
        have ha : (((ordF funcs).filter (fun nf => !(retMatches s.goType nf))).filter
            (retMatches (n', s').2.goType)).Perm
            ((funcs.filter (fun nf => !(retMatches s.goType nf))).filter
            (retMatches (n', s').2.goType)) :=
          ((hF funcs).filter _).filter _
        have hb : (funcs.filter (fun nf => !(retMatches s.goType nf))).filter
            (retMatches (n', s').2.goType) = funcs.filter (retMatches (n', s').2.goType) := by
          rw [List.filter_filter]
          apply List.filter_congr
          intro nf _
          exact retMatches_disjoint s'.goType s.goType hgne nf
        exact (ha.trans (hb ▸ List.Perm.rfl)).map _

/-- The reclassification pass succeeds exactly when every exported method of
every struct's method set is accepted by the callable builder. -/
theorem reclassLoop_ok_iff (d : DocPackage) (decls : List Decl)
    (ordF : List (String × Func) → List (String × Func))
    (slist : List (String × Struct)) (funcs : List (String × Func)) :
    (∃ out, reclassLoop d decls ordF slist funcs = Except.ok out) ↔
      ∀ p ∈ slist, ∀ m ∈ p.2.mset, isExported m.name = true →
        ∃ fm, newFuncFrom d p.1 m m.sig = Except.ok fm := by
  induction slist generalizing funcs with
  | nil => simp [reclassLoop]
  | cons p rest ih =>
      obtain ⟨sname, s⟩ := p
      constructor
      · rintro ⟨⟨ss, fs⟩, hout⟩
        obtain ⟨s2, ss', rfl, hm, hr⟩ :=
          reclassLoop_cons_ok d decls ordF sname s rest funcs ss fs hout
        intro p' hp' m hm' he'
        rcases List.mem_cons.mp hp' with rfl | hp'
        · exact (methLoop_ok_iff d sname s.mset _).mp ⟨s2, hm⟩ m hm' he'
        · exact (ih _).mp ⟨_, hr⟩ p' hp' m hm' he'
      · intro hall
        obtain ⟨s2, hm⟩ := (methLoop_ok_iff d sname s.mset
            ((ctorLoop d decls sname s (ordF funcs)).1)).mpr
          (hall (sname, s) (List.mem_cons_self _ _))
        obtain ⟨⟨ss, fs⟩, hr⟩ := (ih ((ctorLoop d decls sname s (ordF funcs)).2)).mpr
          (fun p' hp' => hall p' (List.mem_cons_of_mem _ hp'))
        exact ⟨(s2 :: ss, fs), reclassLoop_cons_mk d decls ordF sname s rest funcs s2 ss fs hm hr⟩

/-! ## Assembly of the Package value -/

theorem foldl_addStruct_char (p0 : Package) (ss : List Struct) :
    (ss.foldl addStruct p0).name = p0.name ∧
    (ss.foldl addStruct p0).syms = p0.syms ∧
    (ss.foldl addStruct p0).consts = p0.consts ∧
    (ss.foldl addStruct p0).vars = p0.vars ∧
    (ss.foldl addStruct p0).funcs = p0.funcs ∧
    (ss.foldl addStruct p0).structs = p0.structs ++ ss ∧
    (∀ q ∈ (ss.foldl addStruct p0).objs,
      q ∈ p0.objs ∨ ∃ s ∈ ss, q = (s.objName, Object.structO s)) ∧
    (∀ n, n ∈ (ss.foldl addStruct p0).objs.map Prod.fst ↔
      n ∈ p0.objs.map Prod.fst ∨ n ∈ ss.map Struct.objName) := by
  induction ss generalizing p0 with
  | nil => simp
  | cons s rest ih =>
      obtain ⟨h1, h2, h3, h4, h5, h6, h7, h8⟩ := ih (addStruct p0 s)
      rw [List.foldl_cons]
      refine ⟨h1, h2, h3, h4, h5, ?_, ?_, ?_⟩
      · rw [h6]
        simp [addStruct]
      · intro q hq
        rcases h7 q hq with hq' | ⟨s', hs', rfl⟩
        · rcases mem_mapInsert _ _ _ _ hq' with rfl | hq''
          · exact Or.inr ⟨s, List.mem_cons_self _ _, rfl⟩
          · exact Or.inl hq''
        · exact Or.inr ⟨s', List.mem_cons_of_mem _ hs', rfl⟩
      · intro n
        rw [h8 n]
        simp only [addStruct, mapInsert_keys, List.map_cons, List.mem_cons]
        tauto

theorem foldl_addFunc_char (p0 : Package) (l : List (String × Func)) :
    ((l.foldl (fun p nf => addFunc p nf.2) p0)).name = p0.name ∧
    ((l.foldl (fun p nf => addFunc p nf.2) p0)).syms = p0.syms ∧
    ((l.foldl (fun p nf => addFunc p nf.2) p0)).consts = p0.consts ∧
    ((l.foldl (fun p nf => addFunc p nf.2) p0)).vars = p0.vars ∧
    ((l.foldl (fun p nf => addFunc p nf.2) p0)).structs = p0.structs ∧
    ((l.foldl (fun p nf => addFunc p nf.2) p0)).funcs = p0.funcs ++ l.map Prod.snd ∧
    (∀ q ∈ ((l.foldl (fun p nf => addFunc p nf.2) p0)).objs,
      q ∈ p0.objs ∨ ∃ nf ∈ l, q = (nf.2.name, Object.funcO nf.2)) ∧
    (∀ n, n ∈ ((l.foldl (fun p nf => addFunc p nf.2) p0)).objs.map Prod.fst ↔
      n ∈ p0.objs.map Prod.fst ∨ n ∈ l.map (fun nf => nf.2.name)) := by
  induction l generalizing p0 with
  | nil => simp
  | cons nf rest ih =>
      obtain ⟨h1, h2, h3, h4, h5, h6, h7, h8⟩ := ih (addFunc p0 nf.2)
      rw [List.foldl_cons]
      refine ⟨h1, h2, h3, h4, h5, ?_, ?_, ?_⟩
      · rw [h6]
        simp [addFunc]
      · intro q hq
        rcases h7 q hq with hq' | ⟨nf', hnf', rfl⟩
        · rcases mem_mapInsert _ _ _ _ hq' with rfl | hq''
          · exact Or.inr ⟨nf, List.mem_cons_self _ _, rfl⟩
          · exact Or.inl hq''
        · exact Or.inr ⟨nf', List.mem_cons_of_mem _ hnf', rfl⟩
      · intro n
        rw [h8 n]
        simp only [addFunc, mapInsert_keys, List.map_cons, List.mem_cons]
        tauto

theorem processOrd_walk_err (ordS : List (String × Struct) → List (String × Struct))
    (ordF : List (String × Func) → List (String × Func))
    (pkgName : String) (d : DocPackage) (decls : List Decl) (e : PErr)
    (hw : walk d initWalkSt decls = Except.error e) :
    processOrd ordS ordF pkgName d decls = Except.error e := by
  simp [processOrd, hw]

theorem processOrd_reclass_err (ordS : List (String × Struct) → List (String × Struct))
    (ordF : List (String × Func) → List (String × Func))
    (pkgName : String) (d : DocPackage) (decls : List Decl) (st : WalkSt) (e : PErr)
    (hw : walk d initWalkSt decls = Except.ok st)
    (hrl : reclassLoop d decls ordF (ordS st.structs) st.funcs = Except.error e) :
    processOrd ordS ordF pkgName d decls = Except.error e := by
  simp [processOrd, hw, hrl]

theorem processOrd_steps (ordS : List (String × Struct) → List (String × Struct))
    (ordF : List (String × Func) → List (String × Func))
    (pkgName : String) (d : DocPackage) (decls : List Decl) (st : WalkSt)
    (ss : List Struct) (fs : List (String × Func))
    (hw : walk d initWalkSt decls = Except.ok st)
    (hrl : reclassLoop d decls ordF (ordS st.structs) st.funcs = Except.ok (ss, fs)) :
    processOrd ordS ordF pkgName d decls =
      Except.ok ((ordF fs).foldl (fun p nf => addFunc p nf.2)
        (ss.foldl addStruct
          { name := pkgName, syms := st.syms, objs := [], consts := st.consts,
            vars := st.vars, structs := [], funcs := [] })) := by
  simp [processOrd, hw, hrl]

/-- Destructor of a successful run: the walk and the reclassification pass
succeeded, and every component of the produced Package is determined by
their outputs. -/
theorem processOrd_ok (ordS : List (String × Struct) → List (String × Struct))
    (ordF : List (String × Func) → List (String × Func))
    (pkgName : String) (d : DocPackage) (decls : List Decl) (p : Package)
    (h : processOrd ordS ordF pkgName d decls = Except.ok p) :
    ∃ st ss fs, walk d initWalkSt decls = Except.ok st ∧
      reclassLoop d decls ordF (ordS st.structs) st.funcs = Except.ok (ss, fs) ∧
      p.name = pkgName ∧ p.syms = st.syms ∧ p.consts = st.consts ∧ p.vars = st.vars ∧
      p.structs = ss ∧ p.funcs = (ordF fs).map Prod.snd ∧
      (∀ q ∈ p.objs, (∃ s ∈ ss, q = (s.objName, Object.structO s)) ∨
        (∃ nf ∈ ordF fs, q = (nf.2.name, Object.funcO nf.2))) ∧
      (∀ n, n ∈ p.objs.map Prod.fst ↔ n ∈ ss.map Struct.objName ∨
        n ∈ (ordF fs).map (fun nf => nf.2.name)) := by
  rcases hw : walk d initWalkSt decls with e | st
  · rw [processOrd_walk_err ordS ordF pkgName d decls e hw] at h
    exact absurd h (by simp)
  · rcases hrl : reclassLoop d decls ordF (ordS st.structs) st.funcs with e | pr
    · rw [processOrd_reclass_err ordS ordF pkgName d decls st e hw hrl] at h
      exact absurd h (by simp)
    · obtain ⟨ss, fs⟩ := pr
      rw [processOrd_steps ordS ordF pkgName d decls st ss fs hw hrl] at h
      simp only [Except.ok.injEq] at h
      subst h
      obtain ⟨a1, a2, a3, a4, a5, a6, a7, a8⟩ := foldl_addStruct_char
        { name := pkgName, syms := st.syms, objs := [], consts := st.consts,
          vars := st.vars, structs := [], funcs := [] } ss
      obtain ⟨b1, b2, b3, b4, b5, b6, b7, b8⟩ := foldl_addFunc_char
        (ss.foldl addStruct
          { name := pkgName, syms := st.syms, objs := [], consts := st.consts,
            vars := st.vars, structs := [], funcs := [] }) (ordF fs)
      refine ⟨st, ss, fs, rfl, hrl, ?_, ?_, ?_, ?_, ?_, ?_, ?_, ?_⟩
      · rw [b1, a1]
      · rw [b2, a2]
      · rw [b3, a3]
      · rw [b4, a4]
      · rw [b5, a6]
        simp
      · rw [b6, a5]
        simp
      · intro q hq
        rcases b7 q hq with hq' | ⟨nf, hnf, rfl⟩
        · rcases a7 q hq' with hq'' | ⟨s, hs, rfl⟩
          · simp at hq''
          · exact Or.inl ⟨s, hs, rfl⟩
        · exact Or.inr ⟨nf, hnf, rfl⟩
      · intro n
        rw [b8 n, a8 n]
        simp

/-! ## Small helpers for reading off run results -/

theorem forall₂_mem_left {α β : Type} {R : α → β → Prop} :
    ∀ {l₁ : List α} {l₂ : List β}, List.Forall₂ R l₁ l₂ → ∀ a ∈ l₁, ∃ b ∈ l₂, R a b
  | _, _, List.Forall₂.nil, a, ha => absurd ha (List.not_mem_nil a)
  | _, _, List.Forall₂.cons hr hrest, a, ha => by
      rcases List.mem_cons.mp ha with rfl | ha
      · exact ⟨_, List.mem_cons_self _ _, hr⟩
      · obtain ⟨b, hb, hab⟩ := forall₂_mem_left hrest a ha
        exact ⟨b, List.mem_cons_of_mem _ hb, hab⟩

theorem forall₂_mem_right {α β : Type} {R : α → β → Prop} :
    ∀ {l₁ : List α} {l₂ : List β}, List.Forall₂ R l₁ l₂ → ∀ b ∈ l₂, ∃ a ∈ l₁, R a b
  | _, _, List.Forall₂.nil, b, hb => absurd hb (List.not_mem_nil b)
  | _, _, List.Forall₂.cons hr hrest, b, hb => by
      rcases List.mem_cons.mp hb with rfl | hb
      · exact ⟨_, List.mem_cons_self _ _, hr⟩
      · obtain ⟨a, ha, hab⟩ := forall₂_mem_right hrest b hb
        exact ⟨a, List.mem_cons_of_mem _ ha, hab⟩

/-- In an association list with distinct keys, a key determines its value. -/
theorem nodup_keys_value_eq {α : Type} :
    ∀ (l : List (String × α)), (l.map Prod.fst).Nodup →
      ∀ (k : String) (v v' : α), (k, v) ∈ l → (k, v') ∈ l → v = v'
  | [], _, k, v, v', hv, _ => absurd hv (List.not_mem_nil _)
  | q :: rest, hnd, k, v, v', hv, hv' => by
      rw [List.map_cons, List.nodup_cons] at hnd
      rcases List.mem_cons.mp hv with h1 | h1
      · rcases List.mem_cons.mp hv' with h2 | h2
        · subst h1
          exact (congrArg Prod.snd h2).symm
        · subst h1
          exact absurd (List.mem_map_of_mem Prod.fst h2) hnd.1
      · rcases List.mem_cons.mp hv' with h2 | h2
        · subst h2
          exact absurd (List.mem_map_of_mem Prod.fst h1) hnd.1
        · exact nodup_keys_value_eq rest hnd.2 k v v' h1 h2

/-- Under distinct declaration names, scope lookup of a declared name yields
that declaration. -/
theorem scopeLookup_nodup : ∀ (decls : List Decl) (dc : Decl),
    (decls.map Decl.name).Nodup → dc ∈ decls → scopeLookup decls dc.name = some dc
  | [], dc, _, hdc => absurd hdc (List.not_mem_nil _)
  | dc' :: rest, dc, hnd, hdc => by
      rw [List.map_cons, List.nodup_cons] at hnd
      rcases List.mem_cons.mp hdc with rfl | hdc
      · simp [scopeLookup]
      · have hne : (dc'.name == dc.name) = false := by
          simp only [beq_eq_false_iff_ne, ne_eq]
          intro hc
          exact hnd.1 (hc ▸ List.mem_map_of_mem Decl.name hdc)
        simp only [scopeLookup, List.find?_cons, hne]
        exact scopeLookup_nodup rest dc hnd.2 hdc

/-- Every funcs-map entry of the walk carries its key as the model name. -/
theorem walkInv_func_names (d : DocPackage) (decls : List Decl) (st : WalkSt)
    (hinv : WalkInv d decls st) : ∀ q ∈ st.funcs, q.2.name = q.1 := by
  intro q hq
  obtain ⟨obj, _, _, hname, hok⟩ := hinv.2.2.1 q hq
  rw [(newFuncFrom_ok_fields d "" obj obj.sig q.2 hok).1, hname]

/-- Every structs-map entry of the walk is a freshly built struct: its name
is the key, and its constructor/method lists and protocol mask are empty. -/
theorem walkInv_struct_shape (d : DocPackage) (decls : List Decl) (st : WalkSt)
    (hinv : WalkInv d decls st) : ∀ q ∈ st.structs,
      q.2.objName = q.1 ∧ q.2.ctors = [] ∧ q.2.meths = [] ∧ q.2.prots = 0 := by
  intro q hq
  obtain ⟨pk, ms, _, _, hval⟩ := hinv.2.2.2.1 q hq
  rw [hval]
  exact ⟨rfl, rfl, rfl, rfl⟩

/-- Bundled invariant fetch for the canonical run. -/
theorem process_walkInv (d : DocPackage) (decls : List Decl)
    (st : WalkSt) (hw : walk d initWalkSt decls = Except.ok st) :
    WalkInv d decls st :=
  walk_inv d decls decls initWalkSt st (fun _ hx => hx) (initWalkSt_inv d decls) hw

/-- Outcome bundle of the canonical run: the walk and reclassification
results, their invariants, and how every Package component reads off them. -/
theorem process_run_bundle (pkgName : String) (d : DocPackage) (decls : List Decl)
    (p : Package) (h : process pkgName d decls = Except.ok p) :
    ∃ st ss fs, walk d initWalkSt decls = Except.ok st ∧ WalkInv d decls st ∧
      reclassLoop d decls id st.structs st.funcs = Except.ok (ss, fs) ∧
      p.structs = ss ∧ p.funcs = fs.map Prod.snd ∧
      List.Forall₂ (StructOutcome d decls st.funcs) st.structs ss ∧
      fs.Perm (st.funcs.filter
        (fun nf => st.structs.all (fun q => !(retMatches q.2.goType nf)))) ∧
      p.name = pkgName ∧ p.syms = st.syms ∧ p.consts = st.consts ∧ p.vars = st.vars ∧
      (∀ q ∈ p.objs, (∃ s ∈ ss, q = (s.objName, Object.structO s)) ∨
        (∃ nf ∈ fs, q = (nf.2.name, Object.funcO nf.2))) ∧
      (∀ n, n ∈ p.objs.map Prod.fst ↔ n ∈ ss.map Struct.objName ∨
        n ∈ fs.map (fun nf => nf.2.name)) := by
  obtain ⟨st, ss, fs, hw, hrl, c1, c2, c3, c4, c5, c6, c7, c8⟩ :=
    processOrd_ok id id pkgName d decls p h
  simp only [id_eq] at hrl c5 c6 c7 c8
  have hinv := process_walkInv d decls st hw
  have hobj : ∀ q ∈ st.structs, q.2.objName = q.1 :=
    fun q hq => (walkInv_struct_shape d decls st hinv q hq).1
  refine ⟨st, ss, fs, hw, hinv, hrl, c5, c6, ?_, ?_, c1, c2, c3, c4, c7, c8⟩
  · exact reclassLoop_structs d decls id (fun l => List.Perm.refl l) st.structs st.funcs
      ss fs hinv.2.1 hobj hrl
  · exact reclassLoop_funcs d decls id (fun l => List.Perm.refl l) st.structs st.funcs
      ss fs hrl

/-- Name computation along a method-set elaboration. -/
theorem forall₂_newFunc_names (d : DocPackage) (sname : String) :
    ∀ {ms : List FuncObj} {fs : List Func},
      List.Forall₂ (fun m fm => newFuncFrom d sname m m.sig = Except.ok fm) ms fs →
      fs.map Func.name = ms.map FuncObj.name
  | _, _, List.Forall₂.nil => rfl
  | _, _, @List.Forall₂.cons _ _ _ m fm ms fs hr hrest => by
      simp only [List.map_cons]
      rw [(newFuncFrom_ok_fields d sname m m.sig fm hr).1, forall₂_newFunc_names d sname hrest]

/-! ## Congruence under removal of an unexported declaration -/

theorem walk_skip (d : DocPackage) (st : WalkSt) (l₁ l₂ : List Decl) (dcl : Decl)
    (hdx : isExported dcl.name = false) :
    walk d st (l₁ ++ dcl :: l₂) = walk d st (l₁ ++ l₂) := by
  induction l₁ generalizing st with
  | nil =>
      simp only [List.nil_append]
      rw [walk_cons_ok d st st dcl l₂ (walkStep_unexported d st dcl hdx)]
  | cons dc rest ih =>
      simp only [List.cons_append]
      rcases hstep : walkStep d st dc with e | st₂
      · rw [walk_cons_err d st dc _ e hstep, walk_cons_err d st dc _ e hstep]
      · rw [walk_cons_ok d st st₂ dc _ hstep, walk_cons_ok d st st₂ dc _ hstep, ih st₂]

theorem scopeLookup_skip (l₁ l₂ : List Decl) (dcl : Decl) (n : String)
    (hdx : isExported dcl.name = false) (hex : isExported n = true) :
    scopeLookup (l₁ ++ dcl :: l₂) n = scopeLookup (l₁ ++ l₂) n := by
  have hneb : (dcl.name == n) = false := by
    rw [beq_eq_false_iff_ne, ne_eq]
    intro hc
    rw [hc, hex] at hdx
    exact absurd hdx (by simp)
  induction l₁ with
  | nil =>
      simp only [List.nil_append, scopeLookup, List.find?_cons, hneb]
  | cons dc rest ih =>
      simp only [List.cons_append, scopeLookup] at *
      rcases hdc : (dc.name == n)
      · simp only [List.find?_cons, hdc]
        exact ih
      · simp only [List.find?_cons, hdc]

theorem ctorLoop_skip (d : DocPackage) (l₁ l₂ : List Decl) (dcl : Decl)
    (hdx : isExported dcl.name = false) (sname : String) (s : Struct)
    (l : List (String × Func)) (hex : ∀ nf ∈ l, isExported nf.1 = true) :
    ctorLoop d (l₁ ++ dcl :: l₂) sname s l = ctorLoop d (l₁ ++ l₂) sname s l := by
  rw [ctorLoop_eq, ctorLoop_eq]
  have hmap : (l.filter (retMatches s.goType)).map (reclassify d (l₁ ++ dcl :: l₂) sname) =
      (l.filter (retMatches s.goType)).map (reclassify d (l₁ ++ l₂) sname) := by
    apply List.map_congr_left
    intro nf hnf
    have hexn := hex nf (List.mem_of_mem_filter hnf)
    simp only [reclassify, relookupDoc, scopeLookup_skip l₁ l₂ dcl nf.1 hdx hexn]
  rw [hmap]

theorem reclassLoop_skip (d : DocPackage) (l₁ l₂ : List Decl) (dcl : Decl)
    (hdx : isExported dcl.name = false)
    (ordF : List (String × Func) → List (String × Func)) (hF : ∀ l, (ordF l).Perm l) :
    ∀ (slist : List (String × Struct)) (funcs : List (String × Func)),
      (∀ nf ∈ funcs, isExported nf.1 = true) →
      reclassLoop d (l₁ ++ dcl :: l₂) ordF slist funcs =
        reclassLoop d (l₁ ++ l₂) ordF slist funcs := by
  intro slist
  induction slist with
  | nil => intro funcs _; rfl
  | cons p rest ih =>
      intro funcs hex
      obtain ⟨sname, s⟩ := p
      have hexOrd : ∀ nf ∈ ordF funcs, isExported nf.1 = true :=
        fun nf hnf => hex nf ((hF funcs).mem_iff.mp hnf)
      have hexRem : ∀ nf ∈ (ctorLoop d (l₁ ++ l₂) sname s (ordF funcs)).2,
          isExported nf.1 = true := by
        intro nf hnf
        simp only [ctorLoop_eq] at hnf
        exact hexOrd nf (List.mem_of_mem_filter hnf)
      simp only [reclassLoop]
      rw [ctorLoop_skip d l₁ l₂ dcl hdx sname s (ordF funcs) hexOrd,
        ih ((ctorLoop d (l₁ ++ l₂) sname s (ordF funcs)).2) hexRem]

theorem processOrd_skip_unexported (ordS : List (String × Struct) → List (String × Struct))
    (ordF : List (String × Func) → List (String × Func)) (hF : ∀ l, (ordF l).Perm l)
    (pkgName : String) (d : DocPackage) (l₁ l₂ : List Decl) (dcl : Decl)
    (hdx : isExported dcl.name = false) :
    processOrd ordS ordF pkgName d (l₁ ++ dcl :: l₂) =
      processOrd ordS ordF pkgName d (l₁ ++ l₂) := by
  rcases hw : walk d initWalkSt (l₁ ++ l₂) with e | st
  · have hw1 : walk d initWalkSt (l₁ ++ dcl :: l₂) = Except.error e := by
      rw [walk_skip d initWalkSt l₁ l₂ dcl hdx]
      exact hw
    rw [processOrd_walk_err _ _ _ _ _ e hw1, processOrd_walk_err _ _ _ _ _ e hw]
  · have hw1 : walk d initWalkSt (l₁ ++ dcl :: l₂) = Except.ok st := by
      rw [walk_skip d initWalkSt l₁ l₂ dcl hdx]
      exact hw
    have hinv := process_walkInv d (l₁ ++ l₂) st hw
    have hexf : ∀ nf ∈ st.funcs, isExported nf.1 = true := by
      intro nf hnf
      obtain ⟨obj, _, hexo, hname, _⟩ := hinv.2.2.1 nf hnf
      rw [← hname]
      exact hexo
    have hskip := reclassLoop_skip d l₁ l₂ dcl hdx ordF hF (ordS st.structs) st.funcs hexf
    rcases hrl : reclassLoop d (l₁ ++ l₂) ordF (ordS st.structs) st.funcs with e | pr
    · rw [processOrd_reclass_err _ _ _ _ _ st e hw1 (by rw [hskip]; exact hrl),
        processOrd_reclass_err _ _ _ _ _ st e hw hrl]
    · obtain ⟨ss, fs⟩ := pr
      rw [processOrd_steps _ _ _ _ _ st ss fs hw1 (by rw [hskip]; exact hrl),
        processOrd_steps _ _ _ _ _ st ss fs hw hrl]

/-! ## Order stability helpers -/

theorem perm_all_eq {α : Type} {l₁ l₂ : List α} (h : l₁.Perm l₂) (p : α → Bool) :
    l₁.all p = l₂.all p := by
  cases hb : l₂.all p
  · rw [List.all_eq_false] at hb ⊢
    obtain ⟨x, hx, hpx⟩ := hb
    exact ⟨x, h.mem_iff.mpr hx, hpx⟩
  · rw [List.all_eq_true] at hb ⊢
    exact fun x hx => hb x (h.mem_iff.mp hx)

theorem forall₂_ok_unique {α β : Type} (F : α → Except String β) :
    ∀ {ms : List α} {fs₁ fs₂ : List β},
      List.Forall₂ (fun m fm => F m = Except.ok fm) ms fs₁ →
      List.Forall₂ (fun m fm => F m = Except.ok fm) ms fs₂ → fs₁ = fs₂
  | _, _, _, List.Forall₂.nil, List.Forall₂.nil => rfl
  | _, _, _, List.Forall₂.cons h₁ t₁, List.Forall₂.cons h₂ t₂ => by
      rw [Except.ok.inj (h₁.symm.trans h₂), forall₂_ok_unique F t₁ t₂]

theorem forall₂_outcome_names (d : DocPackage) (decls : List Decl)
    (funcs : List (String × Func)) :
    ∀ {slist : List (String × Struct)} {ss : List Struct},
      List.Forall₂ (StructOutcome d decls funcs) slist ss →
      (∀ q ∈ slist, q.2.objName = q.1) →
      ss.map Struct.objName = slist.map Prod.fst
  | _, _, List.Forall₂.nil, _ => rfl
  | _, _, @List.Forall₂.cons _ _ _ q stc slist ss hout hrest, hobj => by
      obtain ⟨cs, hcs, hml⟩ := hout
      simp only [List.map_cons]
      have m2 := (methLoop_ok_char d q.1 q.2.mset _ stc hml).2.1
      rw [forall₂_outcome_names d decls funcs hrest
        (fun x hx => hobj x (List.mem_cons_of_mem _ hx))]
      have : stc.objName = q.1 := by
        rw [m2]
        exact hobj q (List.mem_cons_self _ _)
      rw [this]

/-! ## Separator arithmetic on identity strings -/

theorem sepFree_not_mem (s : String) (h : sepFree s = true) : '_' ∉ s.data := by
  simpa [sepFree] using h

theorem data_join (x y : String) : (x ++ "_" ++ y).data = x.data ++ '_' :: y.data := by
  simp [String.data_append]

theorem afterSepL_append (a b : List Char) (ha : '_' ∉ a) :
    afterSepL (a ++ '_' :: b) = b := by
  induction a with
  | nil => simp [afterSepL]
  | cons c rest ih =>
      simp only [List.mem_cons] at ha
      push_neg at ha
      simp only [List.cons_append, afterSepL, if_neg (Ne.symm ha.1)]
      exact ih ha.2

theorem afterSep_join (x y : String) (hx : sepFree x = true) :
    afterSep (x ++ "_" ++ y) = y := by
  apply String.ext
  show afterSepL (x ++ "_" ++ y).data = y.data
  rw [data_join, afterSepL_append x.data y.data (sepFree_not_mem x hx)]

theorem join3_assoc (pk s m : String) :
    pk ++ "_" ++ s ++ "_" ++ m = pk ++ "_" ++ (s ++ "_" ++ m) := by
  simp [String.append_assoc]

theorem join_not_sepFree (x y : String) : sepFree (x ++ "_" ++ y) = false := by
  have hm : '_' ∈ (x ++ "_" ++ y).data := by
    rw [data_join]
    exact List.mem_append_right _ (List.mem_cons_self _ _)
  simp [sepFree, hm]

theorem sep_join_inj (a : List Char) (c : List Char) (ha : '_' ∉ a) (hc : '_' ∉ c) :
    ∀ (b dl : List Char), a ++ '_' :: b = c ++ '_' :: dl → a = c ∧ b = dl := by
  induction a generalizing c with
  | nil =>
      intro b dl h
      cases c with
      | nil =>
          simp only [List.nil_append, List.cons.injEq] at h
          exact ⟨rfl, h.2⟩
      | cons c₀ crest =>
          simp only [List.nil_append, List.cons_append, List.cons.injEq] at h
          exact absurd (List.mem_cons.mpr (Or.inl h.1)) hc
  | cons a₀ arest ih =>
      intro b dl h
      cases c with
      | nil =>
          simp only [List.cons_append, List.nil_append, List.cons.injEq] at h
          simp only [List.mem_cons] at ha
          push_neg at ha
          exact absurd h.1 (Ne.symm ha.1)
      | cons c₀ crest =>
          simp only [List.cons_append, List.cons.injEq] at h
          simp only [List.mem_cons] at ha hc
          push_neg at ha hc
          obtain ⟨h1, h2⟩ := ih crest ha.2 hc.2 b dl h.2
          exact ⟨by rw [h.1, h1], h2⟩

theorem join_inj (x y x' y' : String) (hx : sepFree x = true) (hx' : sepFree x' = true)
    (h : x ++ "_" ++ y = x' ++ "_" ++ y') : x = x' ∧ y = y' := by
  have hd : x.data ++ '_' :: y.data = x'.data ++ '_' :: y'.data := by
    rw [← data_join, ← data_join, h]
  obtain ⟨h1, h2⟩ := sep_join_inj x.data x'.data (sepFree_not_mem x hx)
    (sepFree_not_mem x' hx') y.data y'.data hd
  exact ⟨String.ext h1, String.ext h2⟩

/-! ## Identity-pool assembly helpers -/

theorem perm_swap_front {α : Type} (a b c : List α) :
    (a ++ (b ++ c)).Perm (b ++ (a ++ c)) := by
  have h1 : a ++ (b ++ c) = (a ++ b) ++ c := (List.append_assoc a b c).symm
  have h2 : b ++ (a ++ c) = (b ++ a) ++ c := (List.append_assoc b a c).symm
  rw [h1, h2]
  exact List.perm_append_comm.append_right c

theorem flatten_interleave_perm {α β : Type} (f g : α → List β) :
    ∀ l : List α, ((l.map (fun x => f x ++ g x)).flatten).Perm
      ((l.map f).flatten ++ (l.map g).flatten)
  | [] => by simp
  | x :: rest => by
      simp only [List.map_cons, List.flatten_cons]
      have ih := flatten_interleave_perm f g rest
      refine (ih.append_left (f x ++ g x)).trans ?_
      have h1 : (f x ++ g x) ++ ((rest.map f).flatten ++ (rest.map g).flatten)
          = f x ++ (g x ++ ((rest.map f).flatten ++ (rest.map g).flatten)) :=
        List.append_assoc _ _ _
      have h2 : (f x ++ (rest.map f).flatten) ++ (g x ++ (rest.map g).flatten)
          = f x ++ ((rest.map f).flatten ++ (g x ++ (rest.map g).flatten)) :=
        List.append_assoc _ _ _
      rw [h1, h2]
      exact (perm_swap_front (g x) ((rest.map f).flatten)
        ((rest.map g).flatten)).append_left (f x)

theorem flatten_congr_perm {α β : Type} (f g : α → List β) :
    ∀ l : List α, (∀ x ∈ l, (f x).Perm (g x)) →
      ((l.map f).flatten).Perm ((l.map g).flatten)
  | [], _ => List.Perm.refl _
  | x :: rest, h => by
      simp only [List.map_cons, List.flatten_cons]
      exact (h x (List.mem_cons_self _ _)).append
        (flatten_congr_perm f g rest (fun y hy => h y (List.mem_cons_of_mem _ hy)))

theorem forall₂_map_congr {α β γ : Type} (R : α → β → Prop) (f : β → γ) (g : α → γ) :
    ∀ {l₁ : List α} {l₂ : List β}, List.Forall₂ R l₁ l₂ →
      (∀ a b, R a b → f b = g a) → l₂.map f = l₁.map g
  | _, _, List.Forall₂.nil, _ => rfl
  | _, _, List.Forall₂.cons hr hrest, h => by
      simp only [List.map_cons]
      rw [h _ _ hr, forall₂_map_congr R f g hrest h]

/-- The funcs map splits, up to permutation, into the entries claimed by no
struct plus, per struct, the entries matching that struct's named type
(distinct named types make the per-struct filters pairwise disjoint). -/
theorem funcs_partition :
    ∀ (slist : List (String × Struct)) (funcs : List (String × Func)),
      slist.Pairwise (fun x y => x.2.goType ≠ y.2.goType) →
      funcs.Perm
        ((funcs.filter (fun nf => slist.all (fun q => !(retMatches q.2.goType nf)))) ++
          (slist.map (fun q => funcs.filter (retMatches q.2.goType))).flatten)
  | [], funcs, _ => by simp
  | (sname, s) :: rest, funcs, hpw => by
      rw [List.pairwise_cons] at hpw
      have ih := funcs_partition rest
        (funcs.filter (fun nf => !(retMatches s.goType nf))) hpw.2
      have eq1 : (funcs.filter (fun nf => !(retMatches s.goType nf))).filter
          (fun nf => rest.all (fun q => !(retMatches q.2.goType nf)))
          = funcs.filter
            (fun nf => ((sname, s) :: rest).all (fun q => !(retMatches q.2.goType nf))) := by
        rw [List.filter_filter]
        apply List.filter_congr
        intro nf _
        simp [List.all_cons, Bool.and_comm]
      have eq2 : rest.map (fun q => (funcs.filter
            (fun nf => !(retMatches s.goType nf))).filter (retMatches q.2.goType))
          = rest.map (fun q => funcs.filter (retMatches q.2.goType)) := by
        apply List.map_congr_left
        intro q hq
        rw [List.filter_filter]
        apply List.filter_congr
        intro nf _
        exact retMatches_disjoint q.2.goType s.goType (Ne.symm (hpw.1 q hq)) nf
      rw [eq1, eq2] at ih
      refine (List.filter_append_perm (retMatches s.goType) funcs).symm.trans ?_
      refine ((ih.append_left (funcs.filter (retMatches s.goType))).trans ?_)
      simp only [List.map_cons, List.flatten_cons]
      exact perm_swap_front _ _ _

/-- A successful walk accepted every exported function declaration it saw. -/
theorem walk_funcs_accepted (d : DocPackage) :
    ∀ (dcs : List Decl) (st st' : WalkSt), walk d st dcs = Except.ok st' →
      ∀ obj : FuncObj, Decl.funcD obj ∈ dcs → isExported obj.name = true →
        ∃ f, newFuncFrom d "" obj obj.sig = Except.ok f
  | [], _, _, _, obj, hobj, _ => absurd hobj (List.not_mem_nil _)
  | dc :: rest, st, st', h, obj, hobj, hex => by
      rcases hstep : walkStep d st dc with e | st₂
      · rw [walk_cons_err d st dc rest e hstep] at h
        exact absurd h (by simp)
      · rw [walk_cons_ok d st st₂ dc rest hstep] at h
        rcases List.mem_cons.mp hobj with rfl | hobj'
        · rcases hok : newFuncFrom d "" obj obj.sig with e | f
          · rw [walkStep_funcD_err d st obj e hex hok] at hstep
            exact absurd hstep (by simp)
          · exact ⟨f, rfl⟩
        · exact walk_funcs_accepted d rest st₂ st' h obj hobj' hex

theorem perm_extract_left {α : Type} {a : α} {A B C M : List α}
    (h : (A ++ B ++ C).Perm M) : ((a :: A) ++ B ++ C).Perm (a :: M) :=
  h.cons a

theorem perm_extract_mid {α : Type} {a : α} {A B C M : List α}
    (h : (A ++ B ++ C).Perm M) : (A ++ (a :: B) ++ C).Perm (a :: M) := by
  have heq : A ++ (a :: B) ++ C = A ++ a :: (B ++ C) := by
    simp [List.append_assoc]
  rw [heq]
  refine List.perm_middle.trans ?_
  rw [← List.append_assoc]
  exact h.cons a

theorem perm_extract_right {α : Type} {a : α} {A B C M : List α}
    (h : (A ++ B ++ C).Perm M) : (A ++ B ++ (a :: C)).Perm (a :: M) :=
  List.perm_middle.trans (h.cons a)

/-- The exported top-level names, in walk order: concatenating the names of
the collected constants, the structs-map keys and the funcs-map keys is a
permutation of the exported constant/struct/function declaration names. -/
theorem top_names_perm (d : DocPackage) :
    ∀ decls : List Decl,
      (∀ obj : FuncObj, Decl.funcD obj ∈ decls → isExported obj.name = true →
        ∃ f, newFuncFrom d "" obj obj.sig = Except.ok f) →
      (((decls.filterMap (constEntry d)).map ConstM.name) ++
        ((decls.filterMap (structEntry d)).map Prod.fst) ++
        ((decls.filterMap (funcEntry d)).map Prod.fst)).Perm
      (decls.filterMap topEntry)
  | [], _ => by simp
  | dc :: rest, hfok => by
      have ih := top_names_perm d rest
        (fun obj hm he => hfok obj (List.mem_cons_of_mem _ hm) he)
      cases dc with
      | constD pk n t =>
          by_cases hex : isExported n
          · simp only [List.filterMap_cons, constEntry, structEntry, funcEntry, topEntry,
              hex, ite_true, List.map_cons, newConst]
            exact perm_extract_left ih
          · have hexb : isExported n = false := by simpa using hex
            simp only [List.filterMap_cons, constEntry, structEntry, funcEntry, topEntry,
              hexb, Bool.false_eq_true, ite_false]
            exact ih
      | varD n t =>
          simp only [List.filterMap_cons, constEntry, structEntry, funcEntry, topEntry]
          exact ih
      | funcD obj =>
          by_cases hex : isExported obj.name
          · obtain ⟨f, hok⟩ := hfok obj (List.mem_cons_self _ _) hex
            simp only [List.filterMap_cons, constEntry, structEntry, funcEntry, topEntry,
              hex, hok, ite_true, Except.toOption, Option.map, List.map_cons]
            exact perm_extract_right ih
          · have hexb : isExported obj.name = false := by simpa using hex
            simp only [List.filterMap_cons, constEntry, structEntry, funcEntry, topEntry,
              hexb, Bool.false_eq_true, ite_false]
            exact ih
      | typeD pk n b ms =>
          cases b
          · simp only [List.filterMap_cons, constEntry, structEntry, funcEntry, topEntry]
            exact ih
          · by_cases hex : isExported n
            · simp only [List.filterMap_cons, constEntry, structEntry, funcEntry, topEntry,
                hex, ite_true, List.map_cons]
              exact perm_extract_mid ih
            · have hexb : isExported n = false := by simpa using hex
              simp only [List.filterMap_cons, constEntry, structEntry, funcEntry, topEntry,
                hexb, Bool.false_eq_true, ite_false]
              exact ih

/-- A name selector that only ever returns the declaration's own name yields
a sublist of the declaration names. -/
theorem filterMap_names_sublist (g : Decl → Option String)
    (hg : ∀ dc n, g dc = some n → n = dc.name) :
    ∀ decls : List Decl, (decls.filterMap g).Sublist (decls.map Decl.name)
  | [] => List.Sublist.refl _
  | dc :: rest => by
      simp only [List.filterMap_cons, List.map_cons]
      rcases hgd : g dc with _ | n
      · exact (filterMap_names_sublist g hg rest).cons _
      · rw [hg dc n hgd]
        exact (filterMap_names_sublist g hg rest).cons₂ _

theorem exported_ne_empty (s : String) (h : isExported s = true) : (s != "") = true := by
  rw [bne_iff_ne]
  intro hc
  rw [hc] at h
  exact absurd h (by decide)

theorem join_right_inj (x y y' : String) (h : x ++ "_" ++ y = x ++ "_" ++ y') : y = y' := by
  have hd := congrArg String.data h
  rw [data_join, data_join] at hd
  have hc := List.append_cancel_left hd
  exact String.ext (List.cons.inj hc).2

/-- Every funcs-map entry's identity splits at the first separator into a
separator-free package name and the entry's key. -/
theorem walkInv_func_id (d : DocPackage) (decls : List Decl) (st : WalkSt)
    (hinv : WalkInv d decls st)
    (hsep : ∀ dc ∈ decls, isExported dc.name = true →
      sepFree dc.name = true ∧ sepFree dc.pkgOf = true) :
    ∀ nf ∈ st.funcs, afterSep nf.2.id = nf.1 ∧ sepFree nf.1 = true := by
  intro nf hnf
  obtain ⟨obj, hmem, hexo, hname, hok⟩ := hinv.2.2.1 nf hnf
  have hid := (newFuncFrom_ok_fields d "" obj obj.sig nf.2 hok).2.1
  have hsp := hsep (Decl.funcD obj) hmem (by simpa [Decl.name] using hexo)
  have hid2 : nf.2.id = obj.pkgName ++ "_" ++ obj.name := by
    simpa using hid
  constructor
  · rw [hid2, afterSep_join obj.pkgName obj.name hsp.2]
    exact hname
  · rw [← hname]
    exact hsp.1

/-- Every collected constant's identity splits at the first separator into a
separator-free package name and the constant's name. -/
theorem walkInv_const_id (d : DocPackage) (decls : List Decl) (st : WalkSt)
    (hinv : WalkInv d decls st)
    (hsep : ∀ dc ∈ decls, isExported dc.name = true →
      sepFree dc.name = true ∧ sepFree dc.pkgOf = true) :
    ∀ c ∈ st.consts, afterSep c.id = c.name ∧ sepFree c.name = true := by
  intro c hc
  obtain ⟨pk, n, t, hmem, hex, hval⟩ := hinv.2.2.2.2.2 c hc
  have hsp := hsep (Decl.constD pk n t) hmem (by simpa [Decl.name] using hex)
  rw [hval]
  have hcid : (newConst d pk n t).id = pk ++ "_" ++ n := rfl
  have hcname : (newConst d pk n t).name = n := rfl
  rw [hcid, hcname, afterSep_join pk n hsp.2]
  exact ⟨rfl, hsp.1⟩

/-- Method models built with a nonempty enclosing-type name carry identities
whose first separator strips to `enclosing_method`. -/
theorem forall₂_meth_tails (d : DocPackage) (sname : String)
    (hs : (sname != "") = true) :
    ∀ {ms : List FuncObj} {fs : List Func},
      List.Forall₂ (fun m fm => newFuncFrom d sname m m.sig = Except.ok fm) ms fs →
      (∀ m ∈ ms, sepFree m.pkgName = true) →
      fs.map (fun fm => afterSep fm.id) = ms.map (fun m => sname ++ "_" ++ m.name)
  | _, _, List.Forall₂.nil, _ => rfl
  | _, _, @List.Forall₂.cons _ _ _ m fm ms fs hr hrest, hpk => by
      simp only [List.map_cons]
      have hid := (newFuncFrom_ok_fields d sname m m.sig fm hr).2.1
      have hid2 : fm.id = m.pkgName ++ "_" ++ (sname ++ "_" ++ m.name) := by
        rw [hid]
        simp only [hs, ite_true]
        exact join3_assoc _ _ _
      rw [hid2, afterSep_join _ _ (hpk m (List.mem_cons_self _ _)),
        forall₂_meth_tails d sname hs hrest (fun y hy => hpk y (List.mem_cons_of_mem _ hy))]

theorem forall₂_flatten_perm {α β γ : Type} (R : α → β → Prop)
    (f : α → List γ) (g : β → List γ) :
    ∀ {l₁ : List α} {l₂ : List β}, List.Forall₂ R l₁ l₂ →
      (∀ a b, R a b → (g b).Perm (f a)) →
      ((l₂.map g).flatten).Perm ((l₁.map f).flatten)
  | _, _, List.Forall₂.nil, _ => List.Perm.refl _
  | _, _, List.Forall₂.cons hr hrest, hp => by
      simp only [List.map_cons, List.flatten_cons]
      exact (hp _ _ hr).append (forall₂_flatten_perm R f g hrest hp)

theorem perm_reassoc_append {α : Type} {A B C D E M : List α} (hD : D.Perm (E ++ M)) :
    (A ++ B ++ C ++ D).Perm ((A ++ B ++ (C ++ E)) ++ M) := by
  refine (hD.append_left (A ++ B ++ C)).trans ?_
  have heq : (A ++ B ++ C) ++ (E ++ M) = (A ++ B ++ (C ++ E)) ++ M := by
    simp [List.append_assoc]
  rw [heq]

/-- The identity data of one finished aggregate type, read off its source
structs-map entry: its identity strips to its name, its constructor
identities strip to the claimed funcs-map keys, and its method identities
strip to `name_method` tails over the exported part of the method set. -/
theorem struct_ids_spec (d : DocPackage) (decls : List Decl) (st : WalkSt)
    (hinv : WalkInv d decls st)
    (hsep : ∀ dc ∈ decls, isExported dc.name = true →
      sepFree dc.name = true ∧ sepFree dc.pkgOf = true)
    (hms : ∀ pk n ms, Decl.typeD pk n true ms ∈ decls →
      (∀ m ∈ ms, sepFree m.pkgName = true) ∧ (ms.map FuncObj.name).Nodup)
    (q : String × Struct) (stc : Struct)
    (hq : q ∈ st.structs)
    (hout : StructOutcome d decls st.funcs q stc) :
    afterSep stc.id = stc.objName ∧ stc.objName = q.1 ∧ sepFree stc.objName = true ∧
    (stc.ctors.map (fun f => afterSep f.id)).Perm
      ((st.funcs.filter (retMatches q.2.goType)).map Prod.fst) ∧
    stc.meths.map (fun f => afterSep f.id)
      = (stc.mset.filter (fun m => isExported m.name)).map
          (fun m => stc.objName ++ "_" ++ m.name) ∧
    ((stc.mset.filter (fun m => isExported m.name)).map FuncObj.name).Nodup := by
  obtain ⟨pk, ms, hmem, hex, hval⟩ := hinv.2.2.2.1 q hq
  obtain ⟨cs, hcs, hml⟩ := hout
  obtain ⟨m1, m2, m3, m4, m5, m6, ⟨fs2, hmeths, hF2m⟩, m8⟩ :=
    methLoop_ok_char d q.1 q.2.mset _ stc hml
  have m2n : stc.objName = q.2.objName := by simpa using m2
  have m3n : stc.mset = q.2.mset := by simpa using m3
  have m4n : stc.id = q.2.id := by simpa using m4
  have m6n : stc.ctors = q.2.ctors ++ cs := by simpa using m6
  have hmeths2 : stc.meths = q.2.meths ++ fs2 := by simpa using hmeths
  have hsp := hsep (Decl.typeD pk q.1 true ms) hmem (by simpa [Decl.name] using hex)
  have hmsp := hms pk q.1 ms hmem
  have q2id : q.2.id = pk ++ "_" ++ q.1 := by simp [hval, newStruct]
  have q2mset : q.2.mset = ms := by simp [hval, newStruct]
  have q2objName : q.2.objName = q.1 := by simp [hval, newStruct]
  have q2ctors : q.2.ctors = [] := by simp [hval, newStruct]
  have q2meths : q.2.meths = [] := by simp [hval, newStruct]
  have hobjName : stc.objName = q.1 := by
    rw [m2n]
    exact q2objName
  have hmset : stc.mset = ms := by
    rw [m3n]
    exact q2mset
  refine ⟨?_, hobjName, ?_, ?_, ?_, ?_⟩
  · rw [m4n, q2id, afterSep_join pk q.1 hsp.2, hobjName]
  · rw [hobjName]
    exact hsp.1
  · have hctors : stc.ctors = cs := by
      rw [m6n, q2ctors]
      simp
    rw [hctors]
    have hv : (cs.map (fun f => afterSep f.id)).Perm
        (((st.funcs.filter (retMatches q.2.goType)).map (reclassify d decls q.1)).map
          (fun f => afterSep f.id)) := hcs.map _
    have hv2 : ((st.funcs.filter (retMatches q.2.goType)).map (reclassify d decls q.1)).map
          (fun f => afterSep f.id)
        = (st.funcs.filter (retMatches q.2.goType)).map Prod.fst := by
      rw [List.map_map]
      apply List.map_congr_left
      intro nf hnf
      have hfid := (walkInv_func_id d decls st hinv hsep nf (List.mem_of_mem_filter hnf)).1
      show afterSep (reclassify d decls q.1 nf).id = nf.1
      rw [show (reclassify d decls q.1 nf).id = nf.2.id from rfl]
      exact hfid
    rw [hv2] at hv
    exact hv
  · have hmeths3 : stc.meths = fs2 := by
      rw [hmeths2, q2meths]
      simp
    rw [hmeths3, hmset, hobjName]
    have hfilter : ∀ m ∈ q.2.mset.filter (fun m => isExported m.name),
        sepFree m.pkgName = true := by
      intro m hm
      have : m ∈ ms := by
        rw [← q2mset]
        exact List.mem_of_mem_filter hm
      exact hmsp.1 m this
    have := forall₂_meth_tails d q.1 (exported_ne_empty q.1 hex) hF2m hfilter
    rw [q2mset] at this
    exact this
  · rw [hmset]
    exact hmsp.2.sublist ((List.filter_sublist ms).map FuncObj.name)

theorem topEntry_name_exported : ∀ (dc : Decl) (n : String), topEntry dc = some n →
    n = dc.name ∧ isExported dc.name = true := by
  intro dc n hdc
  cases dc with
  | constD pk nm t =>
      by_cases hex : isExported nm
      · simp only [topEntry, hex, ite_true] at hdc
        exact ⟨(Option.some.inj hdc).symm, by simpa [Decl.name] using hex⟩
      · have hexb : isExported nm = false := by simpa using hex
        simp [topEntry, hexb] at hdc
  | varD nm t => simp [topEntry] at hdc
  | funcD o =>
      by_cases hex : isExported o.name
      · simp only [topEntry, hex, ite_true] at hdc
        exact ⟨(Option.some.inj hdc).symm, by simpa [Decl.name] using hex⟩
      · have hexb : isExported o.name = false := by simpa using hex
        simp [topEntry, hexb] at hdc
  | typeD pk nm b ms2 =>
      cases b
      · simp [topEntry] at hdc
      · by_cases hex : isExported nm
        · simp only [topEntry, hex, ite_true] at hdc
          exact ⟨(Option.some.inj hdc).symm, by simpa [Decl.name] using hex⟩
        · have hexb : isExported nm = false := by simpa using hex
          simp [topEntry, hexb] at hdc

/-! ## Claim theorems -/

/-- C1: every declaration accepted by `newFuncFrom` gets return type and
error flag per the result-arity policy: no results → no return type, no
error flag; one error-typed result → no return type, error flag; one other
result → that type, no error flag; two results (second the error type) →
first result's type, error flag. -/
theorem newFuncFrom_result_arity (d : DocPackage) (parent : String) (obj : FuncObj)
    (sig : GoSig) (f : Func) (h : newFuncFrom d parent obj sig = Except.ok f) :
    (sig.results = [] → f.ret = none ∧ f.err = false) ∧
    (∀ r, sig.results = [r] → isErrorType r.typ = true → f.ret = none ∧ f.err = true) ∧
    (∀ r, sig.results = [r] → isErrorType r.typ = false → f.ret = some r.typ ∧ f.err = false) ∧
    (∀ r₁ r₂, sig.results = [r₁, r₂] →
      isErrorType r₂.typ = true ∧ f.ret = some r₁.typ ∧ f.err = true) := by
  refine ⟨?_, ?_, ?_, ?_⟩
  · intro hres
    simp only [newFuncFrom, hres] at h
    cases h; exact ⟨rfl, rfl⟩
  · intro r hres he
    simp only [newFuncFrom, hres, he, ite_true] at h
    cases h; exact ⟨rfl, rfl⟩
  · intro r hres he
    simp only [newFuncFrom, hres, he, Bool.false_eq_true, ite_false] at h
    cases h; exact ⟨rfl, rfl⟩
  · intro r₁ r₂ hres
    by_cases he : isErrorType r₂.typ
    · simp only [newFuncFrom, hres, he, Bool.not_true, Bool.false_eq_true, if_false] at h
      cases h; exact ⟨he, rfl, rfl⟩
    · simp only [newFuncFrom, hres, he, Bool.not_false, if_true] at h
      exact absurd h (by simp)

/-- C1 witness: `Divide(a, b int) (int, error)` yields return type `int` and
error flag set. -/
theorem newFuncFrom_result_arity_witness :
    divideFunc.ret = some (GoType.basic "int") ∧ divideFunc.err = true := by
  have h := newFuncFrom_result_arity emptyDoc "" divideObj divideObj.sig divideFunc (by rfl)
  have h2 := h.2.2.2 (GoVar.mk "" (GoType.basic "int")) (GoVar.mk "" GoType.errorT) rfl
  exact ⟨h2.2.1, h2.2.2⟩

/-- C2: `newFuncFrom` returns a recoverable error exactly when the
declaration has two results whose second is not the error type, or three or
more results; and every such error message names the offending declaration. -/
theorem newFuncFrom_error_policy (d : DocPackage) (parent : String) (obj : FuncObj)
    (sig : GoSig) :
    ((∃ e, newFuncFrom d parent obj sig = Except.error e) ↔
      ((∃ r₁ r₂, sig.results = [r₁, r₂] ∧ isErrorType r₂.typ = false) ∨
        3 ≤ sig.results.length)) ∧
    (∀ e, newFuncFrom d parent obj sig = Except.error e →
      ∃ pre post, e = pre ++ obj.name ++ post) := by
  constructor
  · rcases hres : sig.results with _ | ⟨r₁, _ | ⟨r₂, _ | ⟨r₃, rest⟩⟩⟩
    · simp [newFuncFrom, hres]
    · by_cases he : isErrorType r₁.typ <;> simp [newFuncFrom, hres, he]
    · by_cases he : isErrorType r₂.typ
      · simp only [newFuncFrom, hres, he, Bool.not_true, Bool.false_eq_true, if_false]
        constructor
        · rintro ⟨e, hc⟩; exact absurd hc (by simp)
        · rintro (⟨a, b, hab, hb⟩ | hlen)
          · simp only [List.cons.injEq, and_true] at hab
            obtain ⟨rfl, rfl⟩ := hab
            rw [hb] at he
            exact absurd he (by simp)
          · simp at hlen
      · simp only [newFuncFrom, hres, he, Bool.not_false, if_true]
        constructor
        · intro _; exact Or.inl ⟨r₁, r₂, rfl, by simpa using he⟩
        · intro _; exact ⟨_, rfl⟩
    · simp only [newFuncFrom, hres]
      constructor
      · intro _
        right
        simp [hres]
      · intro _; exact ⟨_, rfl⟩
  · intro e he
    rcases hres : sig.results with _ | ⟨r₁, _ | ⟨r₂, _ | ⟨r₃, rest⟩⟩⟩
    · simp [newFuncFrom, hres] at he
    · by_cases h1 : isErrorType r₁.typ <;> simp [newFuncFrom, hres, h1] at he
    · by_cases h1 : isErrorType r₂.typ
      · simp [newFuncFrom, hres, h1] at he
      · simp only [newFuncFrom, hres, h1, Bool.not_false, if_true, Except.error.injEq] at he
        subst he
        refine ⟨"bind: second result value must be of type error: " ++ ("func " ++ obj.pkgName ++ "."),
          "", ?_⟩
        simp [objectString, String.append_assoc, String.append_empty]
    · simp only [newFuncFrom, hres, Except.error.injEq] at he
      subst he
      refine ⟨"bind: too many results to return: " ++ ("func " ++ obj.pkgName ++ "."), "", ?_⟩
      simp [objectString, String.append_assoc, String.append_empty]

/-- C2 witness: a two-result declaration with non-error second result is
rejected with a message naming the declaration. -/
theorem newFuncFrom_error_policy_witness :
    (∃ e, newFuncFrom emptyDoc "" badDualObj badDualObj.sig = Except.error e) ∧
    (∃ pre post,
      "bind: second result value must be of type error: func p.Bad" = pre ++ "Bad" ++ post) := by
  have h := newFuncFrom_error_policy emptyDoc "" badDualObj badDualObj.sig
  refine ⟨?_, ?_⟩
  · exact h.1.mpr (Or.inl ⟨GoVar.mk "" (GoType.basic "int"), GoVar.mk "" (GoType.basic "int"),
      rfl, rfl⟩)
  · exact h.2 _ rfl

/-- Shape of a signature-prefixed doc string: whatever the human doc text is,
the result extends the signature line. -/
theorem sigLine_extends (sig doc : String) :
    ∃ rest, (if doc != "" then sig ++ "\n\n" ++ doc else sig) = sig ++ rest := by
  by_cases h : doc != ""
  · exact ⟨"\n\n" ++ doc, by simp [h, String.append_assoc]⟩
  · exact ⟨"", by simp [h, String.append_empty]⟩

/-- C7: `getDoc` prefixes every callable's resolved doc with the synthesized
signature line — signature, blank line, human doc when the bucket lookup
found one, the signature alone otherwise — and returns the raw bucket text
(empty when absent) for non-callables. -/
theorem getDoc_signature_policy (d : DocPackage) (parent : String) (o : Obj) :
    getDoc d parent o =
      (match o with
       | Obj.funcO f =>
           if callableDocText d parent f != "" then
             specSignatureLine f ++ "\n\n" ++ callableDocText d parent f
           else specSignatureLine f
       | Obj.constO n => findValueDoc d.consts n
       | Obj.varO n => findValueDoc d.vars n
       | Obj.typeO n => findTypeDoc d.types n) ∧
    (∀ f, o = Obj.funcO f → ∃ rest, getDoc d parent o = specSignatureLine f ++ rest) := by
  constructor
  · cases o <;> simp [getDoc, specSignatureLine, callableDocText]
  · rintro f rfl
    exact sigLine_extends (specSignatureLine f) (callableDocText d parent f)

/-- C7 witness: a free function `F()` with doc text `hello` resolves to the
signature, a blank line and the doc, and that string extends the signature
line. -/
theorem getDoc_signature_policy_witness :
    getDoc fWitDoc "" (Obj.funcO fWitObj) = "F() \n\nhello" ∧
    (∃ rest, getDoc fWitDoc "" (Obj.funcO fWitObj) = specSignatureLine fWitObj ++ rest) := by
  have h := getDoc_signature_policy fWitDoc "" (Obj.funcO fWitObj)
  exact ⟨by rw [h.1]; rfl, h.2 fWitObj rfl⟩

/-- C4: in every completed model, each aggregate type's method list consists
of exactly the callable models of the exported methods of its pointer
method set, built with the type as enclosing scope and in method-set order —
so every exported (including promoted) method appears and no unexported one
does. -/
theorem process_method_surface (pkgName : String) (d : DocPackage) (decls : List Decl)
    (p : Package) (h : process pkgName d decls = Except.ok p) :
    ∀ stc ∈ p.structs,
      List.Forall₂ (fun m fm => newFuncFrom d stc.objName m m.sig = Except.ok fm)
        (stc.mset.filter (fun m => isExported m.name)) stc.meths ∧
      stc.meths.map Func.name = (stc.mset.filter (fun m => isExported m.name)).map FuncObj.name := by
  obtain ⟨st, ss, fs, hw, hinv, hrl, hstructs, hfuncs, hF2, hperm, hrest⟩ :=
    process_run_bundle pkgName d decls p h
  intro stc hstc
  rw [hstructs] at hstc
  obtain ⟨⟨n₀, s₀⟩, hmem, cs, hcs, hml⟩ := forall₂_mem_right hF2 stc hstc
  obtain ⟨hshape1, _, hshape3, _⟩ := walkInv_struct_shape d decls st hinv (n₀, s₀) hmem
  obtain ⟨m1, m2, m3, m4, m5, m6, ⟨fs', hfs', hall⟩, m8⟩ := methLoop_ok_char d n₀ s₀.mset _ stc hml
  have hname : stc.objName = n₀ := by
    rw [m2]
    exact hshape1
  have hmset : stc.mset = s₀.mset := m3
  have hmeths : stc.meths = fs' := by
    rw [hfs']
    simp only [List.append_left_eq_self]
    exact hshape3
  constructor
  · rw [hname, hmset, hmeths]
    exact hall
  · rw [hmset, hmeths]
    exact forall₂_newFunc_names d n₀ hall

/-- C4 witness: the `geo` example's `Point` has exactly its exported method
`String` in the method list; the unexported `hidden` method is dropped. -/
theorem process_method_surface_witness :
    (geoPkg.structs.getD 0 defaultStruct).meths.map Func.name = ["String"] := by
  have h := process_method_surface "geo" emptyDoc geoDecls geoPkg (by rfl)
  have h2 := (h (geoPkg.structs.getD 0 defaultStruct) (by decide)).2
  rw [h2]
  decide

/-- C5: in every completed model, an aggregate type's capability mask has
the textual-representation bit set exactly when its pointer method set holds
an exported method of the textual-representation shape. -/
theorem process_stringer_bit (pkgName : String) (d : DocPackage) (decls : List Decl)
    (p : Package) (h : process pkgName d decls = Except.ok p) :
    ∀ stc ∈ p.structs,
      ((stc.prots &&& ProtoStringer ≠ 0) ↔
        ∃ m ∈ stc.mset, isExported m.name = true ∧ isStringer m = true) := by
  obtain ⟨st, ss, fs, hw, hinv, hrl, hstructs, hfuncs, hF2, hperm, hrest⟩ :=
    process_run_bundle pkgName d decls p h
  intro stc hstc
  rw [hstructs] at hstc
  obtain ⟨⟨n₀, s₀⟩, hmem, cs, hcs, hml⟩ := forall₂_mem_right hF2 stc hstc
  obtain ⟨_, _, _, hshape4⟩ := walkInv_struct_shape d decls st hinv (n₀, s₀) hmem
  obtain ⟨m1, m2, m3, m4, m5, m6, m7, m8⟩ := methLoop_ok_char d n₀ s₀.mset _ stc hml
  have hprots : stc.prots =
      (if s₀.mset.any (fun m => isExported m.name && isStringer m) then ProtoStringer else 0) := by
    rw [m8]
    have h0 : s₀.prots = 0 := hshape4
    simp [h0, Nat.zero_or]
  rw [hprots, m3]
  rcases hany : s₀.mset.any (fun m => isExported m.name && isStringer m)
  · simp only [Bool.false_eq_true, if_false]
    constructor
    · intro hc
      exact absurd rfl hc
    · rintro ⟨m, hm, he, hs⟩
      rw [List.any_eq_false] at hany
      have := hany m hm
      rw [he, hs] at this
      exact absurd rfl this
  · simp only [if_true]
    constructor
    · intro _
      rw [List.any_eq_true] at hany
      obtain ⟨m, hm, hms⟩ := hany
      rw [Bool.and_eq_true] at hms
      exact ⟨m, hm, hms.1, hms.2⟩
    · intro _
      decide

/-- C5 witness: `Point` of the `geo` example, whose method set holds the
exported `String() string`, has the stringer bit set. -/
theorem process_stringer_bit_witness :
    (geoPkg.structs.getD 0 defaultStruct).prots &&& ProtoStringer ≠ 0 := by
  have h := process_stringer_bit "geo" emptyDoc geoDecls geoPkg (by rfl)
  exact ((h (geoPkg.structs.getD 0 defaultStruct) (by decide)).mpr
    ⟨FuncObj.mk "geo" "String"
      (GoSig.mk (some (GoVar.mk "p" (GoType.named "geo" "Point"))) []
        [GoVar.mk "" (GoType.basic "string")]) false, by decide, by decide, by decide⟩)

/-- C10: the completed model's name→model lookup succeeds exactly for the
names of aggregate types and of free functions remaining after
reclassification, and whatever it returns is one of those two kinds of
model — constants, variables, methods and reclassified constructors are
never retrievable. -/
theorem process_lookup_domain (pkgName : String) (d : DocPackage) (decls : List Decl)
    (p : Package) (h : process pkgName d decls = Except.ok p) :
    ∀ o : Obj,
      ((Package.Lookup p o).isSome ↔
        o.goName ∈ p.structs.map Struct.objName ∨ o.goName ∈ p.funcs.map Func.name) ∧
      (∀ ob, Package.Lookup p o = some ob →
        (∃ s ∈ p.structs, ob = Object.structO s) ∨ (∃ f ∈ p.funcs, ob = Object.funcO f)) := by
  obtain ⟨st, ss, fs, hw, hinv, hrl, hstructs, hfuncs, hF2, hperm, hname, hsyms, hconsts,
    hvars, hobjsMem, hobjsDom⟩ := process_run_bundle pkgName d decls p h
  intro o
  constructor
  · rw [Package.Lookup, mapFind_isSome, hobjsDom o.goName, hstructs, hfuncs]
    have : fs.map (fun nf => nf.2.name) = (fs.map Prod.snd).map Func.name := by
      simp
    rw [this]
  · intro ob hob
    have hmem := mapFind_mem o.goName p.objs ob hob
    rcases hobjsMem _ hmem with ⟨s, hs, hq⟩ | ⟨nf, hnf, hq⟩
    · refine Or.inl ⟨s, ?_, congrArg Prod.snd hq⟩
      rw [hstructs]
      exact hs
    · refine Or.inr ⟨nf.2, ?_, congrArg Prod.snd hq⟩
      rw [hfuncs]
      exact List.mem_map_of_mem Prod.snd hnf

/-- C10 witness: in the `geo` example, looking up `Point` succeeds (it is an
aggregate type) while `NewPoint` — reclassified as a constructor — fails. -/
theorem process_lookup_domain_witness :
    (Package.Lookup geoPkg (Obj.typeO "Point")).isSome = true ∧
    (Package.Lookup geoPkg (Obj.funcO (FuncObj.mk "geo" "NewPoint"
      (GoSig.mk none [GoVar.mk "x" (GoType.basic "int"), GoVar.mk "y" (GoType.basic "int")]
        [GoVar.mk "" (GoType.named "geo" "Point")]) true))).isSome = false := by
  have h := process_lookup_domain "geo" emptyDoc geoDecls geoPkg (by rfl)
  constructor
  · rw [(h (Obj.typeO "Point")).1]
    decide
  · rw [Bool.eq_false_iff]
    intro hc
    exact absurd ((h _).1.mp hc) (by decide)

/-- C9: an unexported top-level declaration is ignored entirely — removing
it from the scope leaves the analysis result unchanged (it contributes no
constant, variable, function or aggregate-type entry), and no unexported
name is ever registered in the symbol table. -/
theorem process_ignores_unexported (pkgName : String) (d : DocPackage)
    (l₁ l₂ : List Decl) (dcl : Decl) (hdx : isExported dcl.name = false) :
    process pkgName d (l₁ ++ dcl :: l₂) = process pkgName d (l₁ ++ l₂) ∧
    (∀ p, process pkgName d (l₁ ++ dcl :: l₂) = Except.ok p →
      ∀ q ∈ p.syms, isExported q.1 = true) := by
  constructor
  · exact processOrd_skip_unexported id id (fun l => List.Perm.refl l) pkgName d l₁ l₂ dcl hdx
  · intro p hp q hq
    obtain ⟨st, ss, fs, hw, hinv, hrl, hstructs, hfuncs, hF2, hperm, hname, hsyms, hrest⟩ :=
      process_run_bundle pkgName d _ p hp
    rw [hsyms] at hq
    exact hinv.2.2.2.2.1 q hq

/-- C3: after reclassification, an exported free function whose accepted
model returns an exported aggregate type's named type is gone from the
free-function list, sits exactly once in that aggregate type's constructor
list with the constructor flag set and its documentation recomputed with the
type as enclosing scope, and no other aggregate type claims it. -/
theorem process_ctor_reclass (pkgName : String) (d : DocPackage) (decls : List Decl)
    (p : Package) (obj : FuncObj) (f : Func) (tpk tname : String) (ms : List FuncObj)
    (h : process pkgName d decls = Except.ok p)
    (hnodup : (decls.map Decl.name).Nodup)
    (hfd : Decl.funcD obj ∈ decls) (hfe : isExported obj.name = true)
    (hok : newFuncFrom d "" obj obj.sig = Except.ok f)
    (htd : Decl.typeD tpk tname true ms ∈ decls) (hte : isExported tname = true)
    (hret : f.ret = some (GoType.named tpk tname)) :
    obj.name ∉ p.funcs.map Func.name ∧
    (∃ stT ∈ p.structs, stT.objName = tname ∧
      (stT.ctors.map Func.name).count obj.name = 1 ∧
      ∀ g ∈ stT.ctors, g.name = obj.name →
        g.ctor = true ∧ g.doc = getDoc d tname (Obj.funcO obj)) ∧
    (∀ stT ∈ p.structs, stT.objName ≠ tname → obj.name ∉ stT.ctors.map Func.name) := by
  obtain ⟨st, ss, fs, hw, hinv, hrl, hstructs, hfuncs, hF2, hperm, hrest⟩ :=
    process_run_bundle pkgName d decls p h
  obtain ⟨wf, wstr, _, _, _⟩ := walk_char d decls initWalkSt st hw hnodup
    (by intro dc _ _; refine ⟨?_, ?_, ?_⟩ <;> simp [initWalkSt])
  rw [show initWalkSt.funcs = [] from rfl, List.nil_append] at wf
  rw [show initWalkSt.structs = [] from rfl, List.nil_append] at wstr
  have entryF : (obj.name, f) ∈ st.funcs := by
    rw [wf]
    exact List.mem_filterMap.mpr ⟨Decl.funcD obj, hfd,
      by simp [funcEntry, hfe, hok, Except.toOption]⟩
  have entryS : (tname, newStruct d tpk tname ms) ∈ st.structs := by
    rw [wstr]
    exact List.mem_filterMap.mpr ⟨Decl.typeD tpk tname true ms, htd,
      by simp [structEntry, hte]⟩
  have hgo : (newStruct d tpk tname ms).goType = GoType.named tpk tname := rfl
  have matchT : retMatches (newStruct d tpk tname ms).goType (obj.name, f) = true := by
    simp [retMatches, hgo, hret]
  have hvalname : ∀ q ∈ st.funcs, q.2.name = q.1 := walkInv_func_names d decls st hinv
  have hkeysF : (st.funcs.map Prod.fst).Nodup := hinv.1
  refine ⟨?_, ?_, ?_⟩
  · intro hc
    rw [hfuncs] at hc
    obtain ⟨fn, hfn, hfnname⟩ := List.mem_map.mp hc
    obtain ⟨nf, hnf, rfl⟩ := List.mem_map.mp hfn
    have hnf' := hperm.mem_iff.mp hnf
    have hkept := (List.mem_filter.mp hnf').2
    have hnfmem := (List.mem_filter.mp hnf').1
    have hkey : nf.1 = obj.name := by
      rw [← hvalname nf hnfmem, hfnname]
    obtain ⟨n₁, f₁⟩ := nf
    simp only at hkey
    subst hkey
    have hf₁ : f₁ = f := nodup_keys_value_eq st.funcs hkeysF obj.name f₁ f hnfmem entryF
    subst hf₁
    rw [List.all_eq_true] at hkept
    have := hkept (tname, newStruct d tpk tname ms) entryS
    rw [matchT] at this
    exact absurd this (by simp)
  · obtain ⟨stT, hstT, cs, hcs, hml⟩ := forall₂_mem_left hF2 (tname, newStruct d tpk tname ms) entryS
    obtain ⟨m1, m2, m3, m4, m5, m6, m7, m8⟩ := methLoop_ok_char d tname (newStruct d tpk tname ms).mset _ stT hml
    have hnameT : stT.objName = tname := m2
    have hctorsT : stT.ctors = cs := by
      rw [m6]
      simp [newStruct]
    refine ⟨stT, by rw [hstructs]; exact hstT, hnameT, ?_, ?_⟩
    · have hmap2 : ((st.funcs.filter (retMatches (newStruct d tpk tname ms).goType)).map
          (reclassify d decls tname)).map Func.name =
          (st.funcs.filter (retMatches (newStruct d tpk tname ms).goType)).map Prod.fst := by
        rw [List.map_map]
        apply List.map_congr_left
        intro q hq
        exact hvalname q (List.mem_of_mem_filter hq)
      have hpermN : (stT.ctors.map Func.name).Perm
          ((st.funcs.filter (retMatches (newStruct d tpk tname ms).goType)).map Prod.fst) := by
        rw [hctorsT, ← hmap2]
        exact hcs.map Func.name
      rw [hpermN.count_eq]
      refine List.count_eq_one_of_mem ?_ ?_
      · exact ((List.filter_sublist st.funcs).map Prod.fst).nodup hkeysF
      · exact List.mem_map_of_mem Prod.fst (List.mem_filter.mpr ⟨entryF, matchT⟩)
    · intro g hg hgname
      rw [hctorsT] at hg
      have hg' := hcs.mem_iff.mp hg
      obtain ⟨nf, hnf, rfl⟩ := List.mem_map.mp hg'
      have hnfmem := List.mem_of_mem_filter hnf
      have hkey : nf.1 = obj.name := by
        rw [← hvalname nf hnfmem]
        exact hgname
      obtain ⟨n₁, f₁⟩ := nf
      simp only at hkey
      subst hkey
      have hf₁ : f₁ = f := nodup_keys_value_eq st.funcs hkeysF obj.name f₁ f hnfmem entryF
      subst hf₁
      refine ⟨rfl, ?_⟩
      have hlook : scopeLookup decls obj.name = some (Decl.funcD obj) :=
        scopeLookup_nodup decls (Decl.funcD obj) hnodup hfd
      simp [reclassify, relookupDoc, hlook, declObj]
  · intro stT hstT hne hc
    rw [hstructs] at hstT
    obtain ⟨⟨n', s'⟩, hmem', cs', hcs', hml'⟩ := forall₂_mem_right hF2 stT hstT
    obtain ⟨hsh1, hsh2, _, _⟩ := walkInv_struct_shape d decls st hinv (n', s') hmem'
    obtain ⟨q1, q2, q3, q4, q5, q6, q7, q8⟩ := methLoop_ok_char d n' s'.mset _ stT hml'
    have hctorsT' : stT.ctors = cs' := by
      rw [q6]
      simp only []
      rw [hsh2]
      simp
    rw [hctorsT'] at hc
    obtain ⟨g, hg, hgname⟩ := List.mem_map.mp hc
    have hg' := hcs'.mem_iff.mp hg
    obtain ⟨nf, hnf, rfl⟩ := List.mem_map.mp hg'
    have hmatch := (List.mem_filter.mp hnf).2
    have hnfmem := List.mem_of_mem_filter hnf
    have hkey : nf.1 = obj.name := by
      rw [← hvalname nf hnfmem]
      exact hgname
    obtain ⟨n₁, f₁⟩ := nf
    simp only at hkey
    subst hkey
    have hf₁ : f₁ = f := nodup_keys_value_eq st.funcs hkeysF obj.name f₁ f hnfmem entryF
    subst hf₁
    simp only [retMatches, hret] at hmatch
    have hgt : GoType.named tpk tname = (n', s').2.goType := by
      simpa using hmatch
    have : s'.objName = tname := by
      have := hgt.symm
      simp only [Struct.goType, GoType.named.injEq] at this
      exact this.2
    apply hne
    rw [q2]
    exact this

/-- C3 witness: in the `geo` example, `NewPoint` disappears from the
free-function list and appears exactly once among `Point`'s constructors. -/
theorem process_ctor_reclass_witness :
    "NewPoint" ∉ geoPkg.funcs.map Func.name ∧
    (∃ stT ∈ geoPkg.structs, stT.objName = "Point" ∧
      (stT.ctors.map Func.name).count "NewPoint" = 1) := by
  have h := process_ctor_reclass "geo" emptyDoc geoDecls geoPkg npObj npFunc "geo" "Point"
    [FuncObj.mk "geo" "String"
      (GoSig.mk (some (GoVar.mk "p" (GoType.named "geo" "Point"))) []
        [GoVar.mk "" (GoType.basic "string")]) false,
     FuncObj.mk "geo" "hidden"
      (GoSig.mk (some (GoVar.mk "p" (GoType.named "geo" "Point"))) [] []) false]
    (by rfl) (by decide) (by decide) (by decide) (by rfl) (by decide) (by decide) (by rfl)
  obtain ⟨h1, ⟨stT, hmem, hname, hcount, _⟩, _⟩ := h
  exact ⟨h1, stT, hmem, hname, hcount⟩

/-- C9 witness: adding the unexported variable `hidden` in front of the
`geo` scope leaves the produced model unchanged. -/
theorem process_ignores_unexported_witness :
    process "geo" emptyDoc (lowDecl :: geoDecls) = process "geo" emptyDoc geoDecls := by
  have h := process_ignores_unexported "geo" emptyDoc [] geoDecls lowDecl (by decide)
  simpa using h.1

/-- C8 counterexample: two runs over the same input whose funcs map is
ranged in different (but both legitimate, since `List.reverse` permutes)
orders produce different Package models — the free-function list order
flips. -/
theorem process_order_counterexample :
    processOrd id List.reverse "p" emptyDoc abDecls ≠ processOrd id id "p" emptyDoc abDecls := by
  decide

/-- C8 amended: every run agrees with the canonical (insertion-order) run up
to list order — same success/failure, same package name, symbol table,
constants and variables; free-function lists and aggregate-type name lists
are permutations; and each aggregate type matches one of the canonical run
with equal identity, doc, method set, method list and capability mask, and a
permuted constructor list.  Only the order of the funcs/structs/ctors lists
(and of the lookup-map insertions) can depend on map range order. -/
theorem processOrd_order_stable (ordS : List (String × Struct) → List (String × Struct))
    (ordF : List (String × Func) → List (String × Func))
    (hS : ∀ l, (ordS l).Perm l) (hF : ∀ l, (ordF l).Perm l)
    (pkgName : String) (d : DocPackage) (decls : List Decl) :
    ((∃ p, processOrd ordS ordF pkgName d decls = Except.ok p) ↔
      (∃ q, process pkgName d decls = Except.ok q)) ∧
    (∀ p q, processOrd ordS ordF pkgName d decls = Except.ok p →
      process pkgName d decls = Except.ok q →
      p.name = q.name ∧ p.syms = q.syms ∧ p.consts = q.consts ∧ p.vars = q.vars ∧
      p.funcs.Perm q.funcs ∧
      (p.structs.map Struct.objName).Perm (q.structs.map Struct.objName) ∧
      (∀ stc ∈ p.structs, ∃ stc' ∈ q.structs, stc.objName = stc'.objName ∧
        stc.id = stc'.id ∧ stc.doc = stc'.doc ∧ stc.mset = stc'.mset ∧
        stc.meths = stc'.meths ∧ stc.prots = stc'.prots ∧ stc.ctors.Perm stc'.ctors)) := by
  constructor
  · constructor
    · rintro ⟨p, hp⟩
      obtain ⟨st, ss, fs, hw, hrl, _⟩ := processOrd_ok ordS ordF pkgName d decls p hp
      have hcond := (reclassLoop_ok_iff d decls ordF (ordS st.structs) st.funcs).mp ⟨_, hrl⟩
      obtain ⟨⟨ss', fs'⟩, hrl'⟩ := (reclassLoop_ok_iff d decls id st.structs st.funcs).mpr
        (fun pr hpr => hcond pr ((hS st.structs).mem_iff.mpr hpr))
      exact ⟨_, processOrd_steps id id pkgName d decls st ss' fs' hw hrl'⟩
    · rintro ⟨q, hq⟩
      obtain ⟨st, ss', fs', hw, hrl', _⟩ := processOrd_ok id id pkgName d decls q hq
      simp only [id_eq] at hrl'
      have hcond := (reclassLoop_ok_iff d decls id st.structs st.funcs).mp ⟨_, hrl'⟩
      obtain ⟨⟨ss, fs⟩, hrl⟩ := (reclassLoop_ok_iff d decls ordF (ordS st.structs) st.funcs).mpr
        (fun pr hpr => hcond pr ((hS st.structs).mem_iff.mp hpr))
      exact ⟨_, processOrd_steps ordS ordF pkgName d decls st ss fs hw hrl⟩
  · intro p q hp hq
    obtain ⟨st, ss, fs, hw, hrl, c1, c2, c3, c4, c5, c6, c7, c8⟩ :=
      processOrd_ok ordS ordF pkgName d decls p hp
    obtain ⟨st', ss', fs', hw', hrl', d1, d2, d3, d4, d5, d6, d7, d8⟩ :=
      processOrd_ok id id pkgName d decls q hq
    have hst : st = st' := by
      rw [hw] at hw'
      exact Except.ok.inj hw'
    subst hst
    simp only [id_eq] at hrl' d6
    have hinv := process_walkInv d decls st hw
    have hobj : ∀ x ∈ st.structs, x.2.objName = x.1 :=
      fun x hx => (walkInv_struct_shape d decls st hinv x hx).1
    have hobjOrd : ∀ x ∈ ordS st.structs, x.2.objName = x.1 :=
      fun x hx => hobj x ((hS st.structs).mem_iff.mp hx)
    have hkeysOrd : ((ordS st.structs).map Prod.fst).Nodup :=
      (((hS st.structs).map Prod.fst).nodup_iff).mpr hinv.2.1
    have hF2p := reclassLoop_structs d decls ordF hF (ordS st.structs) st.funcs ss fs
      hkeysOrd hobjOrd hrl
    have hF2q := reclassLoop_structs d decls id (fun l => List.Perm.refl l) st.structs
      st.funcs ss' fs' hinv.2.1 hobj hrl'
    have hpermp := reclassLoop_funcs d decls ordF hF (ordS st.structs) st.funcs ss fs hrl
    have hpermq := reclassLoop_funcs d decls id (fun l => List.Perm.refl l) st.structs
      st.funcs ss' fs' hrl'
    have hfilters : st.funcs.filter
        (fun nf => (ordS st.structs).all (fun x => !(retMatches x.2.goType nf))) =
        st.funcs.filter (fun nf => st.structs.all (fun x => !(retMatches x.2.goType nf))) :=
      List.filter_congr (fun nf _ => perm_all_eq (hS st.structs) _)
    refine ⟨c1.trans d1.symm, c2.trans d2.symm, c3.trans d3.symm, c4.trans d4.symm, ?_, ?_, ?_⟩
    · rw [c6, d6]
      refine (((hF fs).trans ?_).map Prod.snd)
      rw [hfilters] at hpermp
      exact hpermp.trans hpermq.symm
    · rw [c5, d5]
      rw [forall₂_outcome_names d decls st.funcs hF2p hobjOrd,
        forall₂_outcome_names d decls st.funcs hF2q hobj]
      exact (hS st.structs).map Prod.fst
    · intro stc hstc
      rw [c5] at hstc
      obtain ⟨x, hx, cs, hcs, hml⟩ := forall₂_mem_right hF2p stc hstc
      have hx' : x ∈ st.structs := (hS st.structs).mem_iff.mp hx
      obtain ⟨stc', hstc', cs', hcs', hml'⟩ := forall₂_mem_left hF2q x hx'
      obtain ⟨m1, m2, m3, m4, m5, m6, ⟨fsm, hfsm, hallm⟩, m8⟩ :=
        methLoop_ok_char d x.1 x.2.mset _ stc hml
      obtain ⟨n1, n2, n3, n4, n5, n6, ⟨fsn, hfsn, halln⟩, n8⟩ :=
        methLoop_ok_char d x.1 x.2.mset _ stc' hml'
      have hfseq : fsm = fsn :=
        forall₂_ok_unique (fun m => newFuncFrom d x.1 m m.sig) hallm halln
      refine ⟨stc', by rw [d5]; exact hstc', ?_, ?_, ?_, ?_, ?_, ?_, ?_⟩
      · rw [m2, n2]
      · rw [m4, n4]
      · rw [m5, n5]
      · rw [m3, n3]
      · rw [hfsm, hfsn, hfseq]
      · rw [m8, n8]
      · rw [m6, n6]
        simp only []
        exact (hcs.trans hcs'.symm).append_left x.2.ctors

/-- C8 witness for the amended statement: instantiated at the reversed-range
run over `abDecls`, whose free-function list is a permutation of the
canonical one (while, per the counterexample, not equal to it). -/
theorem processOrd_order_stable_witness :
    revPkg.funcs.Perm abPkg.funcs ∧ revPkg.funcs ≠ abPkg.funcs := by
  have h := (processOrd_order_stable id List.reverse (fun l => List.Perm.refl l)
    (fun l => List.reverse_perm l) "p" emptyDoc abDecls).2 revPkg abPkg (by rfl) (by rfl)
  exact ⟨h.2.2.2.2.1, by decide⟩

/-- C6 counterexample: a scope with pairwise distinct exported names whose
completed model still carries a duplicated identity string — the method
`B_C` of struct `A` and the free function `A_B_C` both render as
`p_A_B_C`, because joining with the fixed separator `_` is ambiguous when
names themselves contain it. -/
theorem process_ids_counterexample :
    (∃ pk, process "p" emptyDoc clashDecls = Except.ok pk) ∧
    (clashDecls.map Decl.name).Nodup ∧ ¬ (allIds clashPkg).Nodup :=
  ⟨⟨clashPkg, by decide⟩, by decide, by decide⟩

/-- C6 (amended): over the canonical run, the identity strings of all models
of the completed Package — constants, aggregate types, free functions, and
every aggregate type's constructors and methods — are pairwise distinct,
PROVIDED that besides distinct declaration names, the declaration names and
declaring-package names of the exported declarations (and of each struct's
method-set entries) avoid the separator character `_`; the unqualified claim
is refuted by `process_ids_counterexample`. -/
theorem process_ids_unique (pkgName : String) (d : DocPackage) (decls : List Decl)
    (p : Package) (h : process pkgName d decls = Except.ok p)
    (hnodup : (decls.map Decl.name).Nodup)
    (hsep : ∀ dc ∈ decls, isExported dc.name = true →
      sepFree dc.name = true ∧ sepFree dc.pkgOf = true)
    (hms : ∀ pk n ms, Decl.typeD pk n true ms ∈ decls →
      (∀ m ∈ ms, sepFree m.pkgName = true) ∧ (ms.map FuncObj.name).Nodup) :
    (allIds p).Nodup := by
  obtain ⟨st, ss, fs, hw, hinv, hrl, hstructs, hfuncs, hF2, hperm, -, -, hconsts, -, -, -⟩ :=
    process_run_bundle pkgName d decls p h
  have hfresh : ∀ dc ∈ decls, isExported dc.name = true →
      dc.name ∉ initWalkSt.funcs.map Prod.fst ∧ dc.name ∉ initWalkSt.structs.map Prod.fst ∧
      dc.name ∉ initWalkSt.syms.map Prod.fst := by
    intro dc _ _
    simp [initWalkSt]
  obtain ⟨w1, w2, w3, -, -⟩ := walk_char d decls initWalkSt st hw hnodup hfresh
  have wf : st.funcs = decls.filterMap (funcEntry d) := by simpa [initWalkSt] using w1
  have wstr : st.structs = decls.filterMap (structEntry d) := by simpa [initWalkSt] using w2
  have wconsts : st.consts = decls.filterMap (constEntry d) := by simpa [initWalkSt] using w3
  have hobj : ∀ x ∈ st.structs, x.2.objName = x.1 :=
    fun x hx => (walkInv_struct_shape d decls st hinv x hx).1
  have hpw : st.structs.Pairwise (fun x y => x.2.goType ≠ y.2.goType) := by
    have hkeys : st.structs.Pairwise (fun a b => a.1 ≠ b.1) := List.pairwise_map.mp hinv.2.1
    refine hkeys.imp_of_mem ?_
    intro a b ha hb hne hc
    apply hne
    have h1 := hobj a ha
    have h2 := hobj b hb
    simp only [Struct.goType, GoType.named.injEq] at hc
    rw [← h1, ← h2, hc.2]
  have hpart := (funcs_partition st.structs st.funcs hpw).map Prod.fst
  rw [List.map_append, List.map_flatten, List.map_map] at hpart
  have hcomp : st.structs.map
        (List.map Prod.fst ∘ fun q => st.funcs.filter (retMatches q.2.goType))
      = st.structs.map (fun q => (st.funcs.filter (retMatches q.2.goType)).map Prod.fst) :=
    List.map_congr_left (fun q _ => rfl)
  rw [hcomp] at hpart
  have hA : st.consts.map (fun c => afterSep c.id) = st.consts.map ConstM.name :=
    List.map_congr_left (fun c hc => (walkInv_const_id d decls st hinv hsep c hc).1)
  have hB : ss.map (fun s => afterSep s.id) = ss.map Struct.objName := by
    apply List.map_congr_left
    intro stc hstc
    obtain ⟨q, hq, hout⟩ := forall₂_mem_right hF2 stc hstc
    exact (struct_ids_spec d decls st hinv hsep hms q stc hq hout).1
  have hC : (fs.map Prod.snd).map (fun f => afterSep f.id) = fs.map Prod.fst := by
    rw [List.map_map]
    apply List.map_congr_left
    intro nf hnf
    have hmem : nf ∈ st.funcs := List.mem_of_mem_filter (hperm.mem_iff.mp hnf)
    show afterSep nf.2.id = nf.1
    exact (walkInv_func_id d decls st hinv hsep nf hmem).1
  have hF2' : List.Forall₂ (fun q stc => q ∈ st.structs ∧
      StructOutcome d decls st.funcs q stc) st.structs ss :=
    forall₂_imp_mem hF2 (fun a ha b hb => ⟨ha, hb⟩)
  have hKperm : ((ss.map (fun s => s.ctors.map (fun f => afterSep f.id))).flatten).Perm
      ((st.structs.map (fun q => (st.funcs.filter (retMatches q.2.goType)).map
        Prod.fst)).flatten) :=
    forall₂_flatten_perm _ _ _ hF2'
      (fun q stc hqs => (struct_ids_spec d decls st hinv hsep hms q stc hqs.1 hqs.2).2.2.2.1)
  have hTeq : (ss.map (fun s => s.meths.map (fun f => afterSep f.id))).flatten
      = (ss.map (fun stc => (stc.mset.filter (fun m => isExported m.name)).map
        (fun m => stc.objName ++ "_" ++ m.name))).flatten := by
    congr 1
    apply List.map_congr_left
    intro stc hstc
    obtain ⟨q, hq, hout⟩ := forall₂_mem_right hF2 stc hstc
    exact (struct_ids_spec d decls st hinv hsep hms q stc hq hout).2.2.2.2.1
  have h4 : ((ss.map (fun s => s.ctors.map (fun f => afterSep f.id)
        ++ s.meths.map (fun f => afterSep f.id))).flatten).Perm
      ((st.structs.map (fun q => (st.funcs.filter (retMatches q.2.goType)).map
        Prod.fst)).flatten
        ++ (ss.map (fun stc => (stc.mset.filter (fun m => isExported m.name)).map
          (fun m => stc.objName ++ "_" ++ m.name))).flatten) := by
    refine (flatten_interleave_perm _ _ ss).trans ?_
    exact hKperm.append (by rw [hTeq])
  have hG : (allIds p).map afterSep
      = st.consts.map (fun c => afterSep c.id) ++ ss.map (fun s => afterSep s.id)
        ++ (fs.map Prod.snd).map (fun f => afterSep f.id)
        ++ (ss.map (fun s => s.ctors.map (fun f => afterSep f.id)
            ++ s.meths.map (fun f => afterSep f.id))).flatten := by
    rw [allIds, hconsts, hstructs, hfuncs]
    simp only [List.map_append, List.map_flatten, List.map_map]
    congr 1
    congr 1
    apply List.map_congr_left
    intro s _
    show List.map afterSep (List.map (fun f => f.id) s.ctors ++ List.map (fun f => f.id) s.meths)
      = List.map (fun f => afterSep f.id) s.ctors ++ List.map (fun f => afterSep f.id) s.meths
    simp only [List.map_append, List.map_map]
    rfl
  have hGperm : ((allIds p).map afterSep).Perm
      ((st.consts.map ConstM.name ++ ss.map Struct.objName
        ++ (fs.map Prod.fst
          ++ (st.structs.map (fun q => (st.funcs.filter (retMatches q.2.goType)).map
            Prod.fst)).flatten))
        ++ (ss.map (fun stc => (stc.mset.filter (fun m => isExported m.name)).map
          (fun m => stc.objName ++ "_" ++ m.name))).flatten) := by
    rw [hG, hA, hB, hC]
    exact perm_reassoc_append h4
  have hfok := walk_funcs_accepted d decls initWalkSt st hw
  have leftPerm : (st.consts.map ConstM.name ++ ss.map Struct.objName
      ++ (fs.map Prod.fst
        ++ (st.structs.map (fun q => (st.funcs.filter (retMatches q.2.goType)).map
          Prod.fst)).flatten)).Perm (decls.filterMap topEntry) := by
    have hCK : (fs.map Prod.fst
        ++ (st.structs.map (fun q => (st.funcs.filter (retMatches q.2.goType)).map
          Prod.fst)).flatten).Perm (st.funcs.map Prod.fst) :=
      ((hperm.map Prod.fst).append_right _).trans hpart.symm
    refine (hCK.append_left (st.consts.map ConstM.name ++ ss.map Struct.objName)).trans ?_
    rw [forall₂_outcome_names d decls st.funcs hF2 hobj]
    rw [wconsts, wstr, wf]
    exact top_names_perm d decls hfok
  have hmergedNodup : (decls.filterMap topEntry).Nodup :=
    hnodup.sublist (filterMap_names_sublist topEntry
      (fun dc n hn => (topEntry_name_exported dc n hn).1) decls)
  have hmergedSep : ∀ x ∈ decls.filterMap topEntry, sepFree x = true := by
    intro x hx
    obtain ⟨dc, hdc, htd⟩ := List.mem_filterMap.mp hx
    obtain ⟨hxeq, hexd⟩ := topEntry_name_exported dc x htd
    rw [hxeq]
    exact (hsep dc hdc hexd).1
  have htails : ∀ stc ∈ ss, ((stc.mset.filter (fun m => isExported m.name)).map
      (fun m => stc.objName ++ "_" ++ m.name)).Nodup ∧ sepFree stc.objName = true := by
    intro stc hstc
    obtain ⟨q, hq, hout⟩ := forall₂_mem_right hF2 stc hstc
    obtain ⟨-, -, i3, -, -, i6⟩ := struct_ids_spec d decls st hinv hsep hms q stc hq hout
    refine ⟨?_, i3⟩
    have hfl : (stc.mset.filter (fun m => isExported m.name)).Nodup :=
      List.Nodup.of_map FuncObj.name i6
    refine hfl.map_on ?_
    intro x hx y hy hxy
    have hnames : x.name = y.name := join_right_inj stc.objName x.name y.name hxy
    exact List.inj_on_of_nodup_map i6 hx hy hnames
  have hTailsNodup : ((ss.map (fun stc => (stc.mset.filter (fun m => isExported m.name)).map
      (fun m => stc.objName ++ "_" ++ m.name))).flatten).Nodup := by
    rw [List.nodup_flatten]
    constructor
    · intro l hl
      obtain ⟨stc, hstc, rfl⟩ := List.mem_map.mp hl
      exact (htails stc hstc).1
    · rw [List.pairwise_map]
      have hobjNodup : (ss.map Struct.objName).Nodup := by
        rw [forall₂_outcome_names d decls st.funcs hF2 hobj]
        exact hinv.2.1
      have hpw2 : ss.Pairwise (fun a b => a.objName ≠ b.objName) :=
        List.pairwise_map.mp hobjNodup
      refine hpw2.imp_of_mem ?_
      intro a b ha hb hne x hxa hxb
      obtain ⟨ma, -, hma⟩ := List.mem_map.mp hxa
      obtain ⟨mb, -, hmb⟩ := List.mem_map.mp hxb
      exact hne (join_inj a.objName ma.name b.objName mb.name (htails a ha).2 (htails b hb).2
        (hma.trans hmb.symm)).1
  have hdisj : (st.consts.map ConstM.name ++ ss.map Struct.objName
      ++ (fs.map Prod.fst
        ++ (st.structs.map (fun q => (st.funcs.filter (retMatches q.2.goType)).map
          Prod.fst)).flatten)).Disjoint
      ((ss.map (fun stc => (stc.mset.filter (fun m => isExported m.name)).map
        (fun m => stc.objName ++ "_" ++ m.name))).flatten) := by
    intro x hx hxT
    have hxm : x ∈ decls.filterMap topEntry := leftPerm.mem_iff.mp hx
    have hsepx := hmergedSep x hxm
    obtain ⟨l, hl, hxl⟩ := List.mem_flatten.mp hxT
    obtain ⟨stc, -, rfl⟩ := List.mem_map.mp hl
    obtain ⟨m, -, rfl⟩ := List.mem_map.mp hxl
    rw [join_not_sepFree] at hsepx
    exact Bool.noConfusion hsepx
  have hbig := (leftPerm.nodup_iff.mpr hmergedNodup).append hTailsNodup hdisj
  exact List.Nodup.of_map afterSep (hGperm.nodup_iff.mpr hbig)

/-- C6 witness: the `geo` example meets every hypothesis of the amended
uniqueness theorem, and its identity strings are indeed pairwise
distinct. -/
theorem process_ids_unique_witness : (allIds geoPkg).Nodup := by
  have hok : process "geo" emptyDoc geoDecls = Except.ok geoPkg := by decide
  have hmsw : ∀ pk n ms, Decl.typeD pk n true ms ∈ geoDecls →
      (∀ m ∈ ms, sepFree m.pkgName = true) ∧ (ms.map FuncObj.name).Nodup := by
    intro pk n ms hmem
    simp only [geoDecls, List.mem_cons, List.not_mem_nil, or_false] at hmem
    rcases hmem with h1 | h2
    · exact absurd h1 (by simp)
    · obtain ⟨rfl, rfl, -, rfl⟩ := h2
      exact ⟨by decide, by decide⟩
  exact process_ids_unique "geo" emptyDoc geoDecls geoPkg hok (by decide)
    (by decide) hmsw

end GopyBind
